import Mathlib

/-!
Verification development for the muskox checkers engine.

This file gives a shallow embedding, in Lean 4, of the core of the engine:
the packed `Action` encoding and its movetext parser/printer (action.rs),
the 32-bit `Bitboard` with its move generator, legality oracle and Zobrist
hashing (bitboard.rs, zobrist.rs), the material evaluator (evaluation.rs),
the transposition table (search/tt.rs) and the depth-limited search
(search/engine.rs).  Machine integers are modelled as `Nat` with explicit
reduction modulo `2^32` / `2^64` / `2^8` exactly where the Rust code relies
on wrapping; Rust panics (`unwrap` on `None`) are modelled by `Option` with
`none` as the panic outcome; fallible functions return `Except`.
-/

namespace Muskox

/-- Decidable equality for `Except`, used to evaluate results of fallible
operations on concrete inputs. -/
instance {ε α : Type} [DecidableEq ε] [DecidableEq α] : DecidableEq (Except ε α) := fun x y =>
  match x, y with
  | .ok a, .ok b =>
    if h : a = b then isTrue (by rw [h]) else isFalse (fun hc => by cases hc; exact h rfl)
  | .error a, .error b =>
    if h : a = b then isTrue (by rw [h]) else isFalse (fun hc => by cases hc; exact h rfl)
  | .ok _, .error _ => isFalse (fun hc => Except.noConfusion hc)
  | .error _, .ok _ => isFalse (fun hc => Except.noConfusion hc)

/-- Two-bit mask for u32 arithmetic. -/
def u32Mask : Nat := 4294967295

/-- Reduce modulo 2^64, for u64 wrapping arithmetic. -/
def u64 (n : Nat) : Nat := n % 18446744073709551616

/-- The two piece colors (bitboard.rs `Color`); the Rust discriminants are
Black = 0, White = 1, which the engine exploits via
`mem::transmute((turn as u8 + 1) % 2)` to flip the side. -/
inductive Color where
  | Black
  | White
deriving DecidableEq, Repr

/-- Model of `mem::transmute((c as u8 + 1) % 2)`: the other color. -/
def Color.other : Color → Color
  | .Black => .White
  | .White => .Black

/-- The four diagonal directions (action.rs `Direction`); discriminants
UpLeft = 0, UpRight = 1, DownLeft = 2, DownRight = 3 as used by the 2-bit
packing in `Action`. -/
inductive Direction where
  | UpLeft
  | UpRight
  | DownLeft
  | DownRight
deriving DecidableEq, Repr

/-- The discriminant used when an action packs a direction into 2 bits. -/
def Direction.toU2 : Direction → Nat
  | .UpLeft => 0
  | .UpRight => 1
  | .DownLeft => 2
  | .DownRight => 3

/-- action.rs `Direction::between`: infer a direction from a source and a
destination square (0-based), first as a jump delta, then as a row-parity
dependent single-step delta. -/
def Direction.between (source destination : Nat) : Option Direction :=
  let diff : Int := (destination : Int) - (source : Int)
  if diff = -9 then some .UpLeft
  else if diff = -7 then some .UpRight
  else if diff = 7 then some .DownLeft
  else if diff = 9 then some .DownRight
  else if source / 4 % 2 = 0 then
    if diff = -4 then some .UpLeft
    else if diff = -3 then some .UpRight
    else if diff = 4 then some .DownLeft
    else if diff = 5 then some .DownRight
    else none
  else
    if diff = -5 then some .UpLeft
    else if diff = -4 then some .UpRight
    else if diff = 3 then some .DownLeft
    else if diff = 4 then some .DownRight
    else none

/-- action.rs `Direction::relative_to`: the immediate diagonal neighbor of
`position` in direction `self`, or `none` when it leaves the board or wraps
a column. -/
def Direction.relative_to (d : Direction) (position : Nat) : Option Nat :=
  if position > 31 then none
  else
    let p : Int := (position : Int)
    let out : Int :=
      if p / 4 % 2 = 0 then
        match d with
        | .UpLeft => p - 4
        | .UpRight => p - 3
        | .DownLeft => p + 4
        | .DownRight => p + 5
      else
        match d with
        | .UpLeft => p - 5
        | .UpRight => p - 4
        | .DownLeft => p + 3
        | .DownRight => p + 4
    if out < 0 ∨ 31 < out then none
    else
      let inCol : Int := p % 4
      let outCol : Int := out % 4
      if outCol - inCol ≠ 0 ∧ outCol - inCol ≠ 1 ∧ outCol - inCol ≠ -1 then none
      else some out.toNat

/-- action.rs `Direction::relative_jump_from`: the square two diagonal steps
away in direction `self`, or `none` when off-board or column-wrapping. -/
def Direction.relative_jump_from (d : Direction) (position : Nat) : Option Nat :=
  if position > 31 then none
  else
    let p : Int := (position : Int)
    let out : Int :=
      match d with
      | .UpLeft => p - 9
      | .UpRight => p - 7
      | .DownLeft => p + 7
      | .DownRight => p + 9
    if out < 0 ∨ 31 < out then none
    else
      let inCol : Int := p % 4
      let outCol : Int := out % 4
      if outCol - inCol ≠ -1 ∧ outCol - inCol ≠ 1 then none
      else some out.toNat

/-- The two kinds of action (action.rs `ActionType`). -/
inductive ActionType where
  | Move
  | Jump
deriving DecidableEq, Repr

/-- Errors raised when constructing an `Action` (error.rs `ParseActionError`). -/
inductive ParseActionError where
  | MoveQuantityError (quantity : Nat)
  | PositionValueError (position : String)
deriving DecidableEq, Repr

/-- action.rs `Action`: one move packed into a u32 — source (5 bits),
destination (5 bits), jump length (bits 10..14), and up to eight 2-bit jump
directions starting at bit 15.  Equality of actions is equality of the
packed word, as in the derived Rust `PartialEq`. -/
structure Action where
  data : Nat
deriving DecidableEq, Repr

/-- Map a jump delta (±7, ±9) to its direction, as in the `match diff`
of action.rs `from_vector`. -/
def dirOfJumpDiff (diff : Int) : Option Direction :=
  if diff = -9 then some .UpLeft
  else if diff = -7 then some .UpRight
  else if diff = 7 then some .DownLeft
  else if diff = 9 then some .DownRight
  else none

/-- The direction-packing loop of action.rs `from_vector` (lines 177-193):
walk consecutive pairs, OR each inferred jump direction into the packed
word at bit `i * 2 + 15`. -/
def encodeJumps : List Nat → Nat → Nat → Except ParseActionError Nat
  | p0 :: p1 :: rest, i, data =>
    match dirOfJumpDiff ((p1 : Int) - (p0 : Int)) with
    | some d => encodeJumps (p1 :: rest) (i + 1) (data ||| (d.toU2 <<< (i * 2 + 15)))
    | none => .error (.PositionValueError (Nat.repr p0))
  | _, _, data => .ok data

/-- action.rs `Action::from_vector`: build an action from a list of 1-based
positions.  Each position is decremented with u8 wrapping, range-checked,
the length is checked (2..=9), and the action is packed either as a simple
move (two positions whose absolute difference is 3, 4 or 5) or as a jump
chain with per-step directions. -/
def Action.from_vector (positions : List Nat) : Except ParseActionError Action := do
  let positions := positions.map (fun x => (x + 255) % 256)
  match positions.find? (fun x => 31 < x) with
  | some pos => throw (.PositionValueError (Nat.repr pos))
  | none =>
    if positions.length < 2 ∨ 9 < positions.length then
      throw (.MoveQuantityError positions.length)
    else
      match positions with
      | [] => throw (.MoveQuantityError 0)
      | source :: rest =>
        let destination := (source :: rest).getLast (by simp)
        let data := source ||| (destination <<< 5)
        let absDiff := max source destination - min source destination
        if 2 < positions.length ∨ (absDiff ≠ 3 ∧ absDiff ≠ 4 ∧ absDiff ≠ 5) then
          let data := data ||| ((positions.length - 1) <<< 10)
          let data ← encodeJumps positions 0 data
          pure ⟨data⟩
        else
          pure ⟨data⟩

/-- action.rs `Action::source`. -/
def Action.source (a : Action) : Nat := a.data &&& 31

/-- action.rs `Action::destination`. -/
def Action.destination (a : Action) : Nat := (a.data >>> 5) &&& 31

/-- action.rs `Action::jump_len`. -/
def Action.jump_len (a : Action) : Nat := (a.data >>> 10) &&& 15

/-- action.rs `Action::jump_direction`: decode the `i`-th 2-bit direction. -/
def Action.jump_direction (a : Action) (i : Nat) : Option Direction :=
  if a.jump_len ≤ i then none
  else
    match (a.data >>> (i * 2 + 15)) &&& 3 with
    | 0 => some .UpLeft
    | 1 => some .UpRight
    | 2 => some .DownLeft
    | 3 => some .DownRight
    | _ => none

/-- action.rs `Action::action_type`. -/
def Action.action_type (a : Action) : ActionType :=
  match a.jump_len with
  | 0 => ActionType.Move
  | _ => ActionType.Jump

/-- action.rs `Action::move_direction`. -/
def Action.move_direction (a : Action) : Option Direction :=
  if a.action_type = ActionType.Jump then none
  else Direction.between a.source a.destination

/-- Decimal rendering of a number, as Rust `to_string` / `format!`. -/
def digitsOf (n : Nat) : List Char := (Nat.repr n).data

/-- The jump-walk loop of action.rs `Action::movetext` (lines 305-312):
starting from the source, apply each stored direction as a jump, appending
"square-" for every landing square; `none` models the panics of the two
`unwrap`s when a stored direction is absent or walks off the board. -/
def movetextWalk (a : Action) : Nat → Nat → List Char → Option (List Char)
  | 0, _, acc => some acc
  | fuel + 1, curr, acc =>
    let i := a.jump_len - (fuel + 1)
    match a.jump_direction i with
    | none => none
    | some d =>
      match d.relative_jump_from curr with
      | none => none
      | some next => movetextWalk a fuel next (acc ++ digitsOf (next + 1) ++ [Char.ofNat 45])

/-- action.rs `Action::movetext`: render the canonical `p1-p2-…-pk` text
(1-based squares).  `none` models a panic inside the jump walk. -/
def Action.movetext (a : Action) : Option (List Char) :=
  match a.action_type with
  | .Move => some (digitsOf (a.source + 1) ++ [Char.ofNat 45] ++ digitsOf (a.destination + 1))
  | .Jump => do
    let out ← movetextWalk a a.jump_len a.source (digitsOf (a.source + 1) ++ [Char.ofNat 45])
    pure out.dropLast

/-- Split a character list on a separator, as Rust `str::split` (empty
segments are kept, and the list of segments is never empty). -/
def splitOnChar (c : Char) : List Char → List (List Char)
  | [] => [[]]
  | x :: xs =>
    match splitOnChar c xs with
    | [] => [[]]
    | s :: ss => if x = c then [] :: s :: ss else (x :: s) :: ss

/-- Rust `u8::from_str`: an optional leading plus sign, then one or more
ASCII digits, with values above 255 rejected. -/
def parseU8 (cs : List Char) : Option Nat :=
  let cs := match cs with
    | c :: rest => if c = Char.ofNat 43 then rest else c :: rest
    | [] => []
  match cs with
  | [] => none
  | _ =>
    let step : Option Nat → Char → Option Nat := fun acc c =>
      match acc with
      | none => none
      | some v => if c.isDigit then some (v * 10 + (c.toNat - 48)) else none
    match cs.foldl step (some 0) with
    | none => none
    | some v => if 255 < v then none else some v

/-- The `map parse … collect` of action.rs `from_movetext`: parse every
hyphen-separated segment as a u8, failing on the first bad segment. -/
def parseSegments : List (List Char) → Except ParseActionError (List Nat)
  | [] => .ok []
  | s :: ss =>
    match parseU8 s with
    | none => .error (.PositionValueError (String.mk s))
    | some v => do
      let rest ← parseSegments ss
      pure (v :: rest)

/-- action.rs `Action::from_movetext`: split the movetext on hyphens, parse
each segment as a u8, and delegate to `from_vector`. -/
def Action.from_movetext (cs : List Char) : Except ParseActionError Action := do
  let positions ← parseSegments (splitOnChar (Char.ofNat 45) cs)
  Action.from_vector positions

/-- Errors raised by the legality oracle (error.rs `ActionError`). -/
inductive ActionError where
  | SourceColorError (position : Nat) (color : Color)
  | DestinationEmptyError (destination : Nat)
  | SkippedPositionError (skipped : Nat) (color : Color)
  | HaveToJumpError
  | SinglePieceBackwardsError
  | NeedMoreJumpingError
deriving DecidableEq, Repr

/-- Errors raised by the FEN parser (error.rs `ParseBoardError`). -/
inductive ParseBoardError where
  | ColonQuantityError
  | ColorError (letter : String)
  | PositionError (position : String)
deriving DecidableEq, Repr

/-- bitboard.rs `Bitboard`: three 32-bit occupancy masks and the side to
move.  All mask values are kept below `2^32`. -/
structure Bitboard where
  blacks : Nat
  whites : Nat
  kings : Nat
  turn : Color
deriving DecidableEq, Repr

/-- bitboard.rs `Default for Bitboard`: the standard starting position. -/
def Bitboard.default : Bitboard :=
  { blacks := 0x00000fff, whites := 0xfff00000, kings := 0, turn := .Black }

/-- bitboard.rs mask constant `MASK_L3`. -/
def MASK_L3 : Nat := 0x07070707
/-- bitboard.rs mask constant `MASK_L5`. -/
def MASK_L5 : Nat := 0xe0e0e0e0
/-- bitboard.rs mask constant `MASK_R3`. -/
def MASK_R3 : Nat := 0xe0e0e0e0
/-- bitboard.rs mask constant `MASK_R5`. -/
def MASK_R5 : Nat := 0x07070707

/-- Wrapping u32 left shift. -/
def shl32 (a k : Nat) : Nat := (a <<< k) &&& u32Mask

/-- Bitwise u32 complement. -/
def not32 (a : Nat) : Nat := u32Mask ^^^ a

/-- bitboard.rs `Bitboard::is_empty`. -/
def Bitboard.is_empty (b : Bitboard) (position : Nat) : Bool :=
  (b.whites >>> position) % 2 == 0 && (b.blacks >>> position) % 2 == 0

/-- bitboard.rs `Bitboard::is_king`. -/
def Bitboard.is_king (b : Bitboard) (position : Nat) : Bool :=
  (b.kings >>> position) % 2 == 1

/-- bitboard.rs `Bitboard::coloring_eq`. -/
def Bitboard.coloring_eq (b : Bitboard) (position : Nat) (color : Color) : Bool :=
  let colorMask := match color with
    | .White => b.whites
    | .Black => b.blacks
  (colorMask >>> position) % 2 == 1

/-- bitboard.rs `Bitboard::remove_piece`: clear a square in all three masks. -/
def Bitboard.remove_piece (b : Bitboard) (position : Nat) : Bitboard :=
  let mask := not32 (1 <<< position)
  { b with whites := b.whites &&& mask, blacks := b.blacks &&& mask, kings := b.kings &&& mask }

/-- bitboard.rs `Bitboard::add_piece`: set a square in the given color's
mask and, when `is_king`, in the king mask. -/
def Bitboard.add_piece (b : Bitboard) (position : Nat) (color : Color) (is_king : Bool) : Bitboard :=
  let mask := 1 <<< position
  let b := match color with
    | .Black => { b with blacks := b.blacks ||| mask }
    | .White => { b with whites := b.whites ||| mask }
  if is_king then { b with kings := b.kings ||| mask } else b

/-- bitboard.rs `Bitboard::get_movers`: the bit-parallel computation of the
subset of `color`'s pieces with at least one simple-move target. -/
def Bitboard.get_movers (b : Bitboard) (color : Color) : Nat :=
  let not_occupied := not32 (b.whites ||| b.blacks)
  match color with
  | .White =>
    let white_kings := b.whites &&& b.kings
    let movers := shl32 not_occupied 4
    let movers := movers ||| shl32 (not_occupied &&& MASK_R3) 3
    let movers := movers ||| shl32 (not_occupied &&& MASK_R5) 5
    let movers := movers &&& b.whites
    if white_kings ≠ 0 then
      let movers := movers ||| ((not_occupied >>> 4) &&& white_kings)
      let movers := movers ||| (((not_occupied &&& MASK_L3) >>> 3) &&& white_kings)
      let movers := movers ||| (((not_occupied &&& MASK_L5) >>> 5) &&& white_kings)
      movers
    else movers
  | .Black =>
    let black_kings := b.blacks &&& b.kings
    let movers := not_occupied >>> 4
    let movers := movers ||| ((not_occupied &&& MASK_L3) >>> 3)
    let movers := movers ||| ((not_occupied &&& MASK_L5) >>> 5)
    let movers := movers &&& b.blacks
    if black_kings ≠ 0 then
      let movers := movers ||| (shl32 not_occupied 4 &&& black_kings)
      let movers := movers ||| (shl32 (not_occupied &&& MASK_R3) 3 &&& black_kings)
      let movers := movers ||| (shl32 (not_occupied &&& MASK_R5) 5 &&& black_kings)
      movers
    else movers

/-- bitboard.rs `Bitboard::get_jumpers`: the bit-parallel computation of the
subset of `color`'s pieces that can capture. -/
def Bitboard.get_jumpers (b : Bitboard) (color : Color) : Nat :=
  let not_occupied := not32 (b.whites ||| b.blacks)
  match color with
  | .White =>
    let white_kings := b.whites &&& b.kings
    let jumpers : Nat := 0
    let temp := shl32 not_occupied 4 &&& b.blacks
    let jumpers := jumpers ||| (shl32 (temp &&& MASK_R3) 3 ||| shl32 (temp &&& MASK_R5) 5)
    let temp := (shl32 (not_occupied &&& MASK_R3) 3 ||| shl32 (not_occupied &&& MASK_R5) 5) &&& b.blacks
    let jumpers := jumpers ||| shl32 temp 4
    let jumpers := jumpers &&& b.whites
    if white_kings ≠ 0 then
      let temp := (not_occupied >>> 4) &&& b.blacks
      let jumpers := jumpers ||| ((((temp &&& MASK_L3) >>> 3) ||| ((temp &&& MASK_L5) >>> 5)) &&& white_kings)
      let temp := ((((not_occupied &&& MASK_L3) >>> 3) ||| ((not_occupied &&& MASK_L5) >>> 5))) &&& b.blacks
      let jumpers := jumpers ||| ((temp >>> 4) &&& white_kings)
      jumpers
    else jumpers
  | .Black =>
    let black_kings := b.blacks &&& b.kings
    let jumpers : Nat := 0
    let temp := (not_occupied >>> 4) &&& b.whites
    let jumpers := jumpers ||| (((temp &&& MASK_L3) >>> 3) ||| ((temp &&& MASK_L5) >>> 5))
    let temp := ((((not_occupied &&& MASK_L3) >>> 3) ||| ((not_occupied &&& MASK_L5) >>> 5))) &&& b.whites
    let jumpers := jumpers ||| (temp >>> 4)
    let jumpers := jumpers &&& b.blacks
    if black_kings ≠ 0 then
      let temp := shl32 not_occupied 4 &&& b.whites
      let jumpers := jumpers ||| ((shl32 (temp &&& MASK_R3) 3 ||| shl32 (temp &&& MASK_R5) 5) &&& black_kings)
      let temp := (shl32 (not_occupied &&& MASK_R3) 3 ||| shl32 (not_occupied &&& MASK_R5) 5) &&& b.whites
      let jumpers := jumpers ||| (shl32 temp 4 &&& black_kings)
      jumpers
    else jumpers

/-- The side parsing loop of bitboard.rs `from_fen` (lines 104-122): fold
the comma-separated pieces of one side into an occupancy mask and king
additions; an empty piece string breaks out of the loop. -/
def parseFenSide : List (List Char) → Nat → Nat → Except ParseBoardError (Nat × Nat)
  | [], temp, kings => .ok (temp, kings)
  | piece :: rest, temp, kings =>
    match piece with
    | [] => .ok (temp, kings)
    | c :: cs =>
      let parsed : Option Nat × Bool :=
        if c = Char.ofNat 75 then (parseU8 cs, true) else (parseU8 (c :: cs), false)
      match parsed.1 with
      | none => .error (.PositionError (String.mk piece))
      | some n =>
        let piece_n := (n + 255) % 256
        if 31 < piece_n then .error (.PositionError (String.mk piece))
        else
          parseFenSide rest (temp ||| (1 <<< piece_n))
            (if parsed.2 then kings ||| (1 <<< piece_n) else kings)

/-- bitboard.rs `Bitboard::from_fen`: strip whitespace, split on colons,
read the turn letter, and fold each side's pieces into the masks. -/
def Bitboard.from_fen (cs : List Char) : Except ParseBoardError Bitboard := do
  let cs := cs.filter (fun c => !c.isWhitespace)
  let d := splitOnChar (Char.ofNat 58) cs
  match d with
  | [t, s1, s2] =>
    let turn ← match t with
      | [c] =>
        if c = Char.ofNat 66 then pure Color.Black
        else if c = Char.ofNat 87 then pure Color.White
        else throw (ParseBoardError.ColorError (String.mk t))
      | _ => throw (ParseBoardError.ColorError (String.mk t))
    let mut blacks := 0
    let mut whites := 0
    let mut kings := 0
    for position in [s1, s2] do
      let pieces_string := position.drop 1
      let pieces := splitOnChar (Char.ofNat 44) pieces_string
      let (temp, kings2) ← parseFenSide pieces 0 kings
      kings := kings2
      match position with
      | [] => throw (ParseBoardError.PositionError "?")
      | c :: _ =>
        if c = Char.ofNat 66 then blacks := blacks ||| temp
        else if c = Char.ofNat 87 then whites := whites ||| temp
        else throw (ParseBoardError.ColorError (String.mk [c]))
    pure { blacks, whites, kings, turn }
  | _ => throw ParseBoardError.ColonQuantityError

/-- The `write_pieces` closure of bitboard.rs `fen` (lines 186-200): walk
the mask low bit first, emitting `K`-prefixed 1-based square numbers each
followed by a comma.  The loop runs while the mask is nonzero; masks are
below `2^32`, so the recursion is bounded by an explicit 32-step counter. -/
def fenPiecesAux (kings : Nat) : Nat → Nat → Nat → List Char
  | 0, _, _ => []
  | fuel + 1, it, pos =>
    if it = 0 then []
    else
      (if it % 2 = 1 then
        (if (kings >>> (pos - 1)) % 2 = 1 then [Char.ofNat 75] else [])
          ++ digitsOf pos ++ [Char.ofNat 44]
      else [])
        ++ fenPiecesAux kings fuel (it / 2) (pos + 1)

/-- bitboard.rs `Bitboard::fen`: the FEN writer.  Note that after each
side's pieces the code pops one character off the whole output buffer to
drop the trailing comma — when the side has no pieces this removes the
side's color letter instead. -/
def Bitboard.fen (b : Bitboard) : List Char :=
  let out : List Char := [match b.turn with | .Black => Char.ofNat 66 | .White => Char.ofNat 87]
  let out := out ++ [Char.ofNat 58, Char.ofNat 87]
  let out := (out ++ fenPiecesAux b.kings 32 b.whites 1).dropLast
  let out := out ++ [Char.ofNat 58, Char.ofNat 66]
  let out := (out ++ fenPiecesAux b.kings 32 b.blacks 1).dropLast
  out

/-- A finished game's winner (search/searchable.rs `Winner`). -/
inductive Winner where
  | Player (c : Color)
  | Draw
deriving DecidableEq, Repr

/-- search/searchable.rs `GameState`. -/
inductive GameState where
  | Completed (w : Winner)
  | InProgress
deriving DecidableEq, Repr

/-- bitboard.rs `get_game_state`: the side to move loses when it has no
mover and no jumper. -/
def Bitboard.get_game_state (b : Bitboard) : GameState :=
  if b.turn = Color.Black ∧ b.get_movers .Black = 0 ∧ b.get_jumpers .Black = 0 then
    .Completed (.Player .White)
  else if b.turn = Color.White ∧ b.get_movers .White = 0 ∧ b.get_jumpers .White = 0 then
    .Completed (.Player .Black)
  else .InProgress

/-- bitboard.rs `next_position_possibilities`: candidate landing squares
from `position` for the given action type, on `self` — forward directions
for the side to move, all four for kings, jump candidates filtered to those
that leap an opponent piece and land on an empty square.  `none` models the
panics of the two `unwrap`s in the jump filter. -/
def Bitboard.next_position_possibilities (b : Bitboard) (position : Nat)
    (action_type : ActionType) : Option (List Nat) := do
  let directions :=
    (match b.turn with
      | .White => [Direction.UpLeft, Direction.UpRight]
      | .Black => [Direction.DownLeft, Direction.DownRight]) ++
    (if b.is_king position then
      match b.turn with
      | .White => [Direction.DownLeft, Direction.DownRight]
      | .Black => [Direction.UpLeft, Direction.UpRight]
    else [])
  let opponent_color := b.turn.other
  let cands := directions.filterMap (fun d =>
    match action_type with
    | .Move => d.relative_to position
    | .Jump => d.relative_jump_from position)
  let cands ← cands.foldrM (fun p acc =>
    if action_type = ActionType.Jump then do
      let dir ← Direction.between position p
      let over ← dir.relative_to position
      if b.coloring_eq over opponent_color then pure (p :: acc) else pure acc
    else pure (p :: acc)) []
  pure (cands.filter (fun p => b.is_empty p))

/-- The per-direction walk of the jump branch of bitboard.rs `take_action`
(lines 743-771): check the backward rule, check and remove each skipped
piece, and advance the cursor; `none` models the `unwrap` panics. -/
def takeJumpSteps (b : Bitboard) (a : Action) (starts_as_king : Bool) (opponent : Color) :
    Nat → Nat → Bitboard → Option (Except ActionError (Nat × Bitboard))
  | 0, curr, bp => some (.ok (curr, bp))
  | rem + 1, curr, bp =>
    let i := a.jump_len - (rem + 1)
    match a.jump_direction i with
    | none => none
    | some jd =>
      if (jd = Direction.UpLeft ∨ jd = Direction.UpRight) ∧ b.turn = Color.Black ∧ !starts_as_king then
        some (.error .SinglePieceBackwardsError)
      else if (jd = Direction.DownLeft ∨ jd = Direction.DownRight) ∧ b.turn = Color.White ∧ !starts_as_king then
        some (.error .SinglePieceBackwardsError)
      else
        match jd.relative_to curr with
        | none => none
        | some skipped =>
          if !b.coloring_eq skipped opponent then
            some (.error (.SkippedPositionError skipped opponent))
          else
            match jd.relative_jump_from curr with
            | none => none
            | some next => takeJumpSteps b a starts_as_king opponent rem next (bp.remove_piece skipped)

/-- bitboard.rs `Bitboard::take_action`: the legality oracle and state
transition.  Returns `some (.ok b)` on success, `some (.error e)` on an
`ActionError`, and `none` when the Rust code would panic (an `unwrap` of
`None`, e.g. `move_direction().unwrap()` on a direction-less move). -/
def Bitboard.take_action (b : Bitboard) (a : Action) : Option (Except ActionError Bitboard) :=
  let source := a.source
  let destination := a.destination
  let starts_as_king := b.is_king source
  let ends_as_king := starts_as_king || destination / 4 == 0 || destination / 4 == 7
  let opponent_color := b.turn.other
  let board_p := b.remove_piece source
  let board_p := board_p.add_piece destination b.turn ends_as_king
  if !b.coloring_eq source b.turn then
    some (.error (.SourceColorError source b.turn))
  else if !b.is_empty destination then
    some (.error (.DestinationEmptyError destination))
  else
    match a.action_type with
    | .Move =>
      if b.get_jumpers b.turn ≠ 0 then some (.error .HaveToJumpError)
      else
        match a.move_direction with
        | none => none
        | some md =>
          if (md = Direction.UpLeft ∨ md = Direction.UpRight) ∧ b.turn = Color.Black ∧ !b.is_king source then
            some (.error .SinglePieceBackwardsError)
          else if (md = Direction.DownLeft ∨ md = Direction.DownRight) ∧ b.turn = Color.White ∧ !b.is_king source then
            some (.error .SinglePieceBackwardsError)
          else
            some (.ok { board_p with turn := opponent_color })
    | .Jump =>
      match takeJumpSteps b a starts_as_king opponent_color a.jump_len source board_p with
      | none => none
      | some (.error e) => some (.error e)
      | some (.ok (_, bp)) =>
        if bp.get_jumpers b.turn &&& (1 <<< destination) ≠ 0 ∧ ¬(!starts_as_king ∧ ends_as_king) then
          some (.error .NeedMoreJumpingError)
        else
          some (.ok { bp with turn := opponent_color })

/-- bitboard.rs `Bitboard::validate_action`: success of `take_action` with
the resulting board discarded. -/
def Bitboard.validate_action (b : Bitboard) (a : Action) : Option (Except ActionError Unit) :=
  (b.take_action a).map (·.map (fun _ => ()))

/-- One step of the xorshift generator of zobrist.rs `Prng::rand64`
(shifts 12, 25, 27): the updated internal state. -/
def prngNext (s : Nat) : Nat :=
  let s := s ^^^ (s >>> 12)
  let s := s ^^^ u64 (s <<< 25)
  s ^^^ (s >>> 27)

/-- The value returned by zobrist.rs `Prng::rand64`: the updated state
multiplied (wrapping) by 2685821657736338717. -/
def prngOut (s : Nat) : Nat := u64 (s * 2685821657736338717)

/-- The zobrist.rs table-filling loop: `n` successive `rand64` outputs. -/
def zobristTableAux : Nat → Nat → List Nat
  | 0, _ => []
  | n + 1, s =>
    let s2 := prngNext s
    prngOut s2 :: zobristTableAux n s2

/-- zobrist.rs `ZOBRIST_TABLE`: 97 pseudo-random u64 values from the fixed
seed 25184470690726. -/
def zobristTable : List Nat := zobristTableAux 97 25184470690726

/-- Index into the Zobrist table (all call sites stay within 0..96). -/
def zt (i : Nat) : Nat := zobristTable.getD i 0

/-- zobrist.rs `get_position_hash`: the per-color key of a square, XORed
with the king key when `is_king`. -/
def get_position_hash (position : Nat) (color : Color) (is_king : Bool) : Nat :=
  let hash := match color with
    | .Black => zt position
    | .White => zt (32 + position)
  if is_king then hash ^^^ zt (64 + position) else hash

/-- zobrist.rs `get_turn_hash`: the side-to-move key. -/
def get_turn_hash : Nat := zt 96

/-- Ascending indices of the set bits of a mask.  The Rust loops run while
the mask is nonzero, shifting right once per iteration; every mask in the
program is below `2^32`, so 32 iterations always suffice and the recursion
is bounded by an explicit 32-step counter. -/
def bitIdxAux : Nat → Nat → Nat → List Nat
  | 0, _, _ => []
  | fuel + 1, m, pos =>
    if m = 0 then []
    else (if m % 2 = 1 then [pos] else []) ++ bitIdxAux fuel (m / 2) (pos + 1)

/-- Ascending indices of the set bits of a mask, from bit 0. -/
def bitIdx (m : Nat) : List Nat := bitIdxAux 32 m 0

/-- The order in which bitboard.rs `pop_piece` drains a mask: lowest set
bit first for White (`trailing_zeros`), highest set bit first for Black
(`leading_zeros`). -/
def popOrder (m : Nat) (color : Color) : List Nat :=
  match color with
  | .White => bitIdx m
  | .Black => (bitIdx m).reverse

/-- bitboard.rs `Bitboard::zobrist_hash`: XOR of the per-piece keys over
both masks (Black pieces popped high-to-low, White low-to-high) plus the
turn key when White is to move. -/
def Bitboard.zobrist_hash (b : Bitboard) : Nat :=
  let h := (popOrder b.blacks .Black).foldl
    (fun acc p => acc ^^^ get_position_hash p .Black (b.is_king p)) 0
  let h := (popOrder b.whites .White).foldl
    (fun acc p => acc ^^^ get_position_hash p .White (b.is_king p)) h
  if b.turn = Color.White then h ^^^ get_turn_hash else h

/-- search/searchable.rs `ActionStatePair`: an action, the board it leads
to, and the incremental Zobrist delta computed by the generator. -/
structure ActionStatePair where
  action : Action
  state : Bitboard
  zobrist_diff : Nat
deriving DecidableEq, Repr

/-- Processing of one jump candidate in the BFS of bitboard.rs
`generate_all_actions` (lines 608-649): build the extended action, apply
the jump to the in-progress board (note `board.turn` — already flipped for
the second and later steps of a chain — decides the color of the moved
piece and of the zobrist keys), and either emit a finished chain or a new
queue entry. -/
def genJumpCandidate (self board : Bitboard) (base_action : List Nat) (zh : Nat)
    (jumper candidate : Nat) :
    Option (ActionStatePair ⊕ (Bitboard × List Nat × Nat)) := do
  let action_vec := base_action ++ [candidate]
  let action ← (Action.from_vector (action_vec.map (· + 1))).toOption
  let direction ← Direction.between jumper candidate
  let skipped_over ← direction.relative_to jumper
  let starts_as_king := board.is_king jumper
  let ends_as_king := starts_as_king || candidate / 4 == 0 || candidate / 4 == 7
  let board_p := board.add_piece candidate board.turn ends_as_king
  let board_p := board_p.remove_piece jumper
  let board_p := board_p.remove_piece skipped_over
  let board_p := { board_p with turn := self.turn.other }
  let zh := zh ^^^ get_position_hash jumper board.turn starts_as_king
  let zh := zh ^^^ get_position_hash candidate board.turn ends_as_king
  let zh := zh ^^^ get_position_hash skipped_over board_p.turn (board.is_king skipped_over)
  if board_p.get_jumpers board.turn &&& (1 <<< candidate) == 0 || (!starts_as_king && ends_as_king) then
    pure (.inl ⟨action, board_p, zh ^^^ get_turn_hash⟩)
  else
    pure (.inr (board_p, action_vec, zh))

/-- The queue loop of the jump branch of bitboard.rs `generate_all_actions`
(lines 601-650): pop an in-progress chain, enumerate its continuations on
the ORIGINAL board `self` via `next_position_possibilities`, and push each
continuation as a finished action or back onto the queue.  `fuel` bounds
the iteration; `none` models non-termination or a panic. -/
def genJumpBFS (self : Bitboard) : Nat → List (Bitboard × List Nat × Nat) →
    List ActionStatePair → Option (List ActionStatePair)
  | 0, _, _ => none
  | _ + 1, [], acc => some acc
  | fuel + 1, (board, base_action, zh) :: rest, acc => do
    let jumper ← base_action.getLast?
    let cands ← self.next_position_possibilities jumper .Jump
    let step ← cands.foldlM (fun (st : List (Bitboard × List Nat × Nat) × List ActionStatePair)
        candidate => do
      let r ← genJumpCandidate self board base_action zh jumper candidate
      match r with
      | .inl pair => pure (st.1, st.2 ++ [pair])
      | .inr item => pure (st.1 ++ [item], st.2)) ([], [])
    genJumpBFS self fuel (rest ++ step.1) (acc ++ step.2)

/-- The move branch of bitboard.rs `generate_all_actions` (lines 545-584):
for each mover (in pop order) and each step candidate, build the action,
the resulting board and the Zobrist delta. -/
def genMoves (b : Bitboard) : Option (List ActionStatePair) := do
  let movers := popOrder (b.get_movers b.turn) b.turn
  movers.foldlM (fun acc mover => do
    let move_candidates ← b.next_position_possibilities mover .Move
    let starts_as_king := b.is_king mover
    move_candidates.foldlM (fun acc2 candidate => do
      let action ← (Action.from_vector [mover + 1, candidate + 1]).toOption
      let ends_as_king := starts_as_king || candidate / 4 == 0 || candidate / 4 == 7
      let board_p := b.add_piece candidate b.turn ends_as_king
      let board_p := board_p.remove_piece mover
      let board_p := { board_p with turn := b.turn.other }
      let zh := get_position_hash mover b.turn starts_as_king
      let zh := zh ^^^ get_position_hash candidate b.turn ends_as_king
      let zh := zh ^^^ get_turn_hash
      pure (acc2 ++ [ActionStatePair.mk action board_p zh])) acc) []

/-- bitboard.rs `Bitboard::generate_all_actions`: empty on a completed
game; capture chains (BFS over continuations) when the side to move has a
jumper, simple moves otherwise.  `none` models a panic or BFS fuel
exhaustion (the concrete positions settled below stay far below the fuel). -/
def Bitboard.generate_all_actions (b : Bitboard) : Option (List ActionStatePair) :=
  match b.get_game_state with
  | .Completed _ => some []
  | .InProgress =>
    let jumpers := b.get_jumpers b.turn
    if jumpers == 0 then genMoves b
    else
      let queue := (popOrder jumpers b.turn).map (fun p => (b, [p], 0))
      genJumpBFS b 1000 queue []

/-- search/searchable.rs `Optim`. -/
inductive Optim where
  | Max
  | Min
deriving DecidableEq, Repr

/-- bitboard.rs `impl Side for Color`: White minimizes, Black maximizes. -/
def Color.optim : Color → Optim
  | .White => Optim.Min
  | .Black => Optim.Max

/-- The engine's score values.  The Rust engine stores scores in `f32`
(wrapped in `OrderedFloat`); in the fragment modelled here every score is
either an infinity sentinel (`f32::INFINITY`, `f32::NEG_INFINITY`) or a
small integer produced by the material evaluator, all of which `f32`
represents exactly, so the embedding uses an integer plus the two
sentinels. -/
inductive SVal where
  | ninf
  | fin (z : Int)
  | inf
deriving DecidableEq, Repr

/-- The total order on scores (`OrderedFloat` comparison restricted to the
values that occur: no NaN). -/
def SVal.le : SVal → SVal → Bool
  | .ninf, _ => true
  | .fin _, .ninf => false
  | .fin a, .fin b => a ≤ b
  | .fin _, .inf => true
  | .inf, .inf => true
  | .inf, _ => false

/-- Rust `cmp::max` (returns the second argument on ties). -/
def SVal.max (a b : SVal) : SVal := if SVal.le a b then b else a

/-- Rust `cmp::min` (returns the first argument on ties). -/
def SVal.min (a b : SVal) : SVal := if SVal.le a b then a else b

/-- The bit-counting loop of the default evaluator (evaluation.rs); the
loop runs while the mask is nonzero, so 32 steps suffice for the u32
masks it is applied to. -/
def countOnesAux : Nat → Nat → Nat
  | 0, _ => 0
  | fuel + 1, m => if m = 0 then 0 else m % 2 + countOnesAux fuel (m / 2)

/-- evaluation.rs `count_ones`. -/
def countOnes (m : Nat) : Nat := countOnesAux 32 m

/-- evaluation.rs `BoardEvaluator::default`: material count — black minus
white pieces, plus black minus white kings (kings counted twice). -/
def evaluate (b : Bitboard) : Int :=
  (countOnes b.blacks : Int) - countOnes b.whites
    + (countOnes (b.blacks &&& b.kings) : Int) - countOnes (b.whites &&& b.kings)

/-- Wrap to u8. -/
def u8 (n : Nat) : Nat := n % 256

/-- Wrapping u8 subtraction. -/
def u8sub (a b : Nat) : Nat := (a % 256 + 256 - b % 256) % 256

/-- search/tt.rs `TTEntry`. -/
structure TTEntry where
  state : Bitboard
  depth : Nat
  score : SVal
  generation : Nat
deriving DecidableEq, Repr

/-- search/tt.rs `TTEntry::default`: sentinel depth 255 (`DEFAULT_FLAG`),
score 0, and — crucially — the DEFAULT BOARD as the stored state. -/
def TTEntry.default : TTEntry :=
  { state := Bitboard.default, depth := 255, score := .fin 0, generation := 0 }

/-- search/tt.rs `TTEntry::replace_value`:
`depth - 4 * (current_generation - generation)` in wrapping u8
arithmetic. -/
def TTEntry.replace_value (e : TTEntry) (current_generation : Nat) : Nat :=
  u8sub e.depth (u8 (4 * u8sub current_generation e.generation))

/-- search/tt.rs `TranspositionTable`: clusters of three entries; the
cluster count is a size-derived parameter `n_clusters` (kept abstract
here), and `generation` is the u8 search counter. -/
structure TranspositionTable where
  clusters : List (List TTEntry)
  n_clusters : Nat
  generation : Nat
deriving DecidableEq, Repr

/-- search/tt.rs `TranspositionTable::new`: all-default clusters,
generation 1. -/
def TranspositionTable.fresh (n : Nat) : TranspositionTable :=
  { clusters := List.replicate n (List.replicate 3 TTEntry.default)
    n_clusters := n
    generation := 1 }

/-- search/tt.rs `new_search`: bump the generation (u8 wrap). -/
def TranspositionTable.new_search (t : TranspositionTable) : TranspositionTable :=
  { t with generation := (t.generation + 1) % 256 }

/-- The slot-selection loop of search/tt.rs `save` (lines 83-90): overwrite
the first slot that the new entry's replacement priority beats or that
still carries the sentinel depth; leave the cluster unchanged otherwise. -/
def saveCluster (entry : TTEntry) (generation : Nat) : List TTEntry → List TTEntry
  | [] => []
  | e :: rest =>
    if e.replace_value generation < entry.replace_value generation ∨ e.depth = 255 then
      entry :: rest
    else e :: saveCluster entry generation rest

/-- search/tt.rs `TranspositionTable::save`. -/
def TranspositionTable.save (t : TranspositionTable) (zobrist_hash : Nat) (state : Bitboard)
    (depth : Nat) (score : SVal) : TranspositionTable :=
  let entry : TTEntry := { state, depth, score, generation := t.generation }
  let key := zobrist_hash % t.n_clusters
  let cluster := t.clusters.getD key []
  { t with clusters := t.clusters.set key (saveCluster entry t.generation cluster) }

/-- The lookup loop of search/tt.rs `probe` (lines 118-123): the first
entry whose stored depth is at least the probe depth and whose stored
state equals the probed state. -/
def probeCluster (state : Bitboard) (depth : Nat) : List TTEntry → Option SVal
  | [] => none
  | e :: rest =>
    if depth ≤ e.depth ∧ e.state = state then some e.score
    else probeCluster state depth rest

/-- search/tt.rs `TranspositionTable::probe`. -/
def TranspositionTable.probe (t : TranspositionTable) (zobrist_hash : Nat) (state : Bitboard)
    (depth : Nat) : Option SVal :=
  let key := zobrist_hash % t.n_clusters
  probeCluster state depth (t.clusters.getD key [])

/-- One operation against a transposition table, for stating reachability
invariants over save / probe / new-search histories. -/
inductive TTOp where
  | save (key : Nat) (state : Bitboard) (depth : Nat) (score : SVal)
  | newSearch
  | probeOp (key : Nat) (state : Bitboard) (depth : Nat)
deriving DecidableEq, Repr

/-- Apply one operation to a table (probe is read-only). -/
def ttStep (t : TranspositionTable) : TTOp → TranspositionTable
  | .save k s d v => t.save k s d v
  | .newSearch => t.new_search
  | .probeOp _ _ _ => t

/-- Run a history of operations against a table. -/
def ttRun (t : TranspositionTable) (ops : List TTOp) : TranspositionTable :=
  ops.foldl ttStep t

/-- A pending call of the alpha-beta recursion of engine.rs: either a node
visit of `minmax_helper`, or the children fold inside it (Max or Min
flavor, carrying the running best value, the window and the threaded
table). -/
inductive MMCall where
  | node (depth : Nat) (tbl : TranspositionTable) (state : Bitboard)
      (alpha beta : SVal) (zh : Nat)
  | foldMax (depth : Nat) (tbl : TranspositionTable) (children : List ActionStatePair)
      (max_eval alpha beta : SVal) (zh : Nat)
  | foldMin (depth : Nat) (tbl : TranspositionTable) (children : List ActionStatePair)
      (min_eval alpha beta : SVal) (zh : Nat)

/-- search/engine.rs `Engine::minmax_helper`: fail-soft alpha-beta with a
TT probe on entry and a TT save of the folded value on exit; depth 0 and
finished games return the static evaluation without saving (the early
returns at engine.rs lines 88-94).  The table is threaded explicitly (the
Rust table is shared interior-mutable state).  The recursion is bounded by
an explicit step counter; `none` models a panic, generator fuel
exhaustion, or an exhausted step counter — the theorems below either
evaluate concrete searches (far below the counter) or take the successful
run as a hypothesis. -/
def mmRun : Nat → MMCall → Option (SVal × TranspositionTable)
  | 0, _ => none
  | fuel + 1, .node depth tbl state alpha beta zh =>
    match tbl.probe zh state depth with
    | some value => some (value, tbl)
    | none =>
      match depth with
      | 0 => some (.fin (evaluate state), tbl)
      | d + 1 =>
        if state.get_game_state ≠ GameState.InProgress then
          some (.fin (evaluate state), tbl)
        else do
          let children ← state.generate_all_actions
          let folded ←
            match state.turn.optim with
            | .Max => mmRun fuel (.foldMax d tbl children SVal.ninf alpha beta zh)
            | .Min => mmRun fuel (.foldMin d tbl children SVal.inf alpha beta zh)
          pure (folded.1, (folded.2).save zh state (d + 1) folded.1)
  | _ + 1, .foldMax _ tbl [] max_eval _ _ _ => some (max_eval, tbl)
  | fuel + 1, .foldMax depth tbl (p :: rest) max_eval alpha beta zh => do
    let r ← mmRun fuel (.node depth tbl p.state alpha beta (zh ^^^ p.zobrist_diff))
    let max_eval := SVal.max max_eval r.1
    let alpha := SVal.max alpha max_eval
    if SVal.le beta alpha then pure (max_eval, r.2)
    else mmRun fuel (.foldMax depth r.2 rest max_eval alpha beta zh)
  | _ + 1, .foldMin _ tbl [] min_eval _ _ _ => some (min_eval, tbl)
  | fuel + 1, .foldMin depth tbl (p :: rest) min_eval alpha beta zh => do
    let r ← mmRun fuel (.node depth tbl p.state alpha beta (zh ^^^ p.zobrist_diff))
    let min_eval := SVal.min min_eval r.1
    let beta := SVal.min beta min_eval
    if SVal.le beta alpha then pure (min_eval, r.2)
    else mmRun fuel (.foldMin depth r.2 rest min_eval alpha beta zh)

/-- The step-counter budget used for whole-search evaluations. -/
def searchFuel : Nat := 1000000

/-- `minmax_helper` entered at a node, with the standard budget. -/
def minmax (depth : Nat) (tbl : TranspositionTable) (state : Bitboard)
    (alpha beta : SVal) (zobrist_hash : Nat) : Option (SVal × TranspositionTable) :=
  mmRun searchFuel (.node depth tbl state alpha beta zobrist_hash)

/-- Stable insertion of a scored action before the first element it
compares less-or-equal to. -/
def insPair (le : SVal → SVal → Bool) (x : Action × SVal) :
    List (Action × SVal) → List (Action × SVal)
  | [] => [x]
  | y :: ys => if le x.2 y.2 then x :: y :: ys else y :: insPair le x ys

/-- Stable insertion sort — Rust's `sort_by` is stable, so it produces
exactly this list for the same comparator. -/
def sortPairs (le : SVal → SVal → Bool) : List (Action × SVal) → List (Action × SVal)
  | [] => []
  | x :: xs => insPair le x (sortPairs le xs)

/-- The comparator of engine.rs `search` (lines 50-53): ascending score
for a minimizing side, descending for a maximizing side. -/
def searchLe (optim : Optim) : SVal → SVal → Bool
  | a, b =>
    match optim with
    | .Min => SVal.le a b
    | .Max => SVal.le b a

/-- search/engine.rs `Engine::search` with `SearchConstraint::Depth(d)` on
a fresh engine whose table has `n` clusters: bump the TT generation,
compute every root child's score by `minmax_helper` at depth `d` with a
full window (threading the shared table through the children in order),
zip the scores with the root actions, and stable-sort by the side to
move's optimization direction. -/
def searchDepth (n : Nat) (state : Bitboard) (d : Nat) :
    Option (List (Action × SVal)) := do
  let tt := (TranspositionTable.fresh n).new_search
  let zobrist_hash := state.zobrist_hash
  let action_states ← state.generate_all_actions
  let folded ← action_states.foldlM
    (fun (st : List SVal × TranspositionTable) p => do
      let r ← minmax d st.2 p.state SVal.ninf SVal.inf (zobrist_hash ^^^ p.zobrist_diff)
      pure (st.1 ++ [r.1], r.2)) (([], tt) : List SVal × TranspositionTable)
  let out := (action_states.map (·.action)).zip folded.1
  pure (sortPairs (searchLe state.turn.optim) out)

/-!  Specification-side definitions, written from the spec's words, to be
compared with the source-translated definitions above. -/

/-- The specified depth-1 score of a root child: the static evaluation for
a finished game, otherwise the side-to-move's optimum (Max for Black, Min
for White) of the static evaluations of the child's own children — one ply
of minimax below the child, which is what `minmax_helper(child, 1, …)`
computes when no transposition-table interference occurs. -/
def value1 (c : Bitboard) : Option SVal :=
  if c.get_game_state ≠ GameState.InProgress then some (.fin (evaluate c))
  else
    (c.generate_all_actions).map (fun l =>
      match c.turn.optim with
      | .Max => l.foldl (fun acc p => SVal.max acc (.fin (evaluate p.state))) SVal.ninf
      | .Min => l.foldl (fun acc p => SVal.min acc (.fin (evaluate p.state))) SVal.inf)

/-- The spec's claimed score of a root child at depth 1: the child's own
static evaluation. -/
def specChildScore (c : Bitboard) : SVal := .fin (evaluate c)

/-- A list of scores is sorted in the optimization direction of `optim`
(descending for Max, ascending for Min). -/
def sortedInDirection (optim : Optim) : List SVal → Bool
  | a :: b :: rest => searchLe optim a b && sortedInDirection optim (b :: rest)
  | _ => true

/-- A list of integers is in descending order. -/
def chainDesc : List Int → Bool
  | a :: b :: rest => b ≤ a && chainDesc (b :: rest)
  | _ => true

/-- Spec-side FEN piece text: optional `K` prefix and the decimal 1-based
square number. -/
def pieceText (kings : Nat) (sq : Nat) : List Char :=
  (if (kings >>> (sq - 1)) % 2 = 1 then [Char.ofNat 75] else []) ++ digitsOf sq

/-- Spec-side FEN side text: the side's occupied squares in ascending
order, comma-separated, each with its `K` prefix when kinged. -/
def sideText (kings mask : Nat) : List Char :=
  List.intercalate [Char.ofNat 44] (((bitIdx mask).map (· + 1)).map (pieceText kings))

/-- Spec-side FEN of a board whose two sides are both nonempty: turn
letter, then `:W`, White's pieces ascending, then `:B`, Black's pieces
ascending. -/
def fenSpec (b : Bitboard) : List Char :=
  [match b.turn with | .Black => Char.ofNat 66 | .White => Char.ofNat 87]
    ++ [Char.ofNat 58, Char.ofNat 87] ++ sideText b.kings b.whites
    ++ [Char.ofNat 58, Char.ofNat 66] ++ sideText b.kings b.blacks

/-- Whether two 0-based squares are a legal single diagonal step apart
(some direction's `relative_to` sends the first to the second). -/
def isStepPair (a b : Nat) : Bool :=
  [Direction.UpLeft, Direction.UpRight, Direction.DownLeft, Direction.DownRight].any
    (fun d => d.relative_to a == some b)

/-- Whether two 0-based squares are a legal diagonal jump apart (some
direction's `relative_jump_from` sends the first to the second). -/
def isJumpPair (a b : Nat) : Bool :=
  [Direction.UpLeft, Direction.UpRight, Direction.DownLeft, Direction.DownRight].any
    (fun d => d.relative_jump_from a == some b)

/-- Every consecutive pair of the list is a legal jump. -/
def chainJumps : List Nat → Bool
  | p :: q :: rest => isJumpPair p q && chainJumps (q :: rest)
  | _ => true

/-- Legal movetext position sequences (1-based): two squares a single
diagonal step apart (a simple move), or 2..9 squares whose consecutive
pairs are all legal diagonal jumps (a capture chain of up to 8 jumps). -/
def validSeq (ps : List Nat) : Bool :=
  ps.all (fun p => 1 ≤ p && p ≤ 32) &&
  (match ps with
   | [p, q] => isStepPair (p - 1) (q - 1) || isJumpPair (p - 1) (q - 1)
   | _ => 2 ≤ ps.length && ps.length ≤ 9 && chainJumps (ps.map (· - 1)))

/-- The table invariant behind transposition-table probe soundness: every
slot of every cluster is either the untouched default entry or carries
exactly the state, depth and score of some save in the history, performed
with a key that maps to that cluster. -/
def TableOK (n : Nat) (ops : List TTOp) (t : TranspositionTable) : Prop :=
  t.n_clusters = n ∧ t.clusters.length = n ∧
  ∀ i, i < n → ∀ e ∈ t.clusters.getD i [], e = TTEntry.default ∨
    ∃ kp, TTOp.save kp e.state e.depth e.score ∈ ops ∧ kp % n = i

/-- Concatenation of texts each followed by a separator — the exact shape
the writers leave in a buffer before popping the trailing separator. -/
def joinTrail (sep : Char) : List (List Char) → List Char
  | [] => []
  | s :: rest => s ++ [sep] ++ joinTrail sep rest

/-- Whether an action survives the movetext round trip: construction,
rendering, and re-parsing give back the same packed word. -/
def roundTripOK (ps : List Nat) : Bool :=
  match Action.from_vector ps with
  | .error _ => false
  | .ok a =>
    match a.movetext with
    | none => false
    | some mt => decide (Action.from_movetext mt = .ok a)

/-- The directions of the consecutive jumps of a 0-based position chain. -/
def jumpDirsAux : List Nat → Option (List Direction)
  | p :: q :: rest =>
    match dirOfJumpDiff ((q : Int) - (p : Int)) with
    | some d => (jumpDirsAux (q :: rest)).map (d :: ·)
    | none => none
  | _ => some []

/-- The board parsed from `B:W18:B10`: a black man on square 10, a white
man on square 18, Black to move — both black moves lose the man one ply
later, so the depth-1 minimax value of each child differs from the
child's static evaluation. -/
def C6board : Bitboard := { blacks := 0x200, whites := 0x20000, kings := 0, turn := .Black }

/-- The two root action/state pairs the generator produces on `C6board`
(the moves 10-14 and 10-15). -/
def C6children : List ActionStatePair :=
  [{ action := ⟨425⟩,
     state := { blacks := 8192, whites := 131072, kings := 0, turn := .White },
     zobrist_diff := 3302496713027771394 },
   { action := ⟨457⟩,
     state := { blacks := 16384, whites := 131072, kings := 0, turn := .White },
     zobrist_diff := 1469190656845512909 }]

/-- Every entry stored anywhere in the table satisfies `P` on its state
field (over `getD`, so out-of-range clusters — the empty list — hold
vacuously). -/
def tblAll (P : Bitboard → Prop) (t : TranspositionTable) : Prop :=
  ∀ k : Nat, ∀ e ∈ t.clusters.getD k [], P e.state

/-- The boards in the list are pairwise distinct. -/
def distinctStates : List Bitboard → Bool
  | [] => true
  | s :: rest => rest.all (fun x => decide (x ≠ s)) && distinctStates rest

/-- The conditions under which a depth-1 child expansion runs without any
transposition-table interference: the child is not the sentinel default
board, and (if the child's game is still in progress) its own generator
succeeds within the search budget and none of the grandchildren is the
default board or collides with a state in `states`. -/
def childClean (states : List Bitboard) (c : Bitboard) : Bool :=
  decide (c ≠ Bitboard.default) &&
  (if c.get_game_state = GameState.InProgress then
    match c.generate_all_actions with
    | none => false
    | some gcs =>
      decide (gcs.length + 2 ≤ searchFuel) &&
      gcs.all (fun g => decide (g.state ≠ Bitboard.default) && decide (g.state ∉ states))
  else true)

/-- The root children of a depth-1 search are clean: pairwise distinct
states, and every child expansion clean with respect to the full set of
child states. -/
def depth1Clean (cs : List ActionStatePair) : Bool :=
  distinctStates (cs.map (·.state)) &&
  cs.all (fun p => childClean (cs.map (·.state)) p.state)

/-- The one-further-ply values of a list of children, all at once
(`none` if any single `value1` is `none`). -/
def mapVal1 : List ActionStatePair → Option (List SVal)
  | [] => some []
  | p :: rest => do
    let v ← value1 p.state
    let vs ← mapVal1 rest
    pure (v :: vs)

set_option maxRecDepth 4000000

/-- C2: the bit-parallel movers/jumpers computations produce exactly the
masks the spec enumerates — on the default board movers(Black) =
0x00000F00, movers(White) = 0x00F00000 and both jumpers are 0, and on the
board parsed from `B:W18,24,27,28,K10,K15:B12,16,20,K22,K25,K29` (blacks
0x11288800, whites 0x0C824200, kings 0x11204200, turn Black) movers(Black)
= 0x01208000 and movers(White) = 0x04824200. -/
theorem C2_movers_jumpers_masks :
    Bitboard.default.blacks = 0x00000fff ∧ Bitboard.default.whites = 0xfff00000 ∧
    Bitboard.default.kings = 0 ∧ Bitboard.default.turn = Color.Black ∧
    Bitboard.default.get_movers .Black = 0x00000f00 ∧
    Bitboard.default.get_movers .White = 0x00f00000 ∧
    Bitboard.default.get_jumpers .Black = 0 ∧
    Bitboard.default.get_jumpers .White = 0 ∧
    Bitboard.from_fen ("B:W18,24,27,28,K10,K15:B12,16,20,K22,K25,K29".data)
      = .ok { blacks := 0x11288800, whites := 0x0c824200, kings := 0x11204200, turn := .Black } ∧
    Bitboard.get_movers
      { blacks := 0x11288800, whites := 0x0c824200, kings := 0x11204200, turn := .Black } .Black
      = 0x01208000 ∧
    Bitboard.get_movers
      { blacks := 0x11288800, whites := 0x0c824200, kings := 0x11204200, turn := .Black } .White
      = 0x04824200 := by
  decide

/-- C3: on the board parsed from `B:W11,18,26,27:B8`, validating `8-15-22`
fails with NeedMoreJumpingError (a further jump exists from the landing
square), validating `8-15-22-31` succeeds, and taking `8-15-22-31` yields
blacks = 0x40000000, whites = 0x04000000, kings = 0x40000000 — the piece
promoted on landing at square 32 and the chain ended there. -/
theorem C3_promotion_terminates_chain :
    Bitboard.from_fen ("B:W11,18,26,27:B8".data)
      = .ok { blacks := 0x80, whites := 0x06020400, kings := 0, turn := .Black } ∧
    (Action.from_movetext ("8-15-22".data)).map
      (fun a => Bitboard.validate_action
        { blacks := 0x80, whites := 0x06020400, kings := 0, turn := .Black } a)
      = .ok (some (.error .NeedMoreJumpingError)) ∧
    (Action.from_movetext ("8-15-22-31".data)).map
      (fun a => Bitboard.validate_action
        { blacks := 0x80, whites := 0x06020400, kings := 0, turn := .Black } a)
      = .ok (some (.ok ())) ∧
    (Action.from_movetext ("8-15-22-31".data)).map
      (fun a => Bitboard.take_action
        { blacks := 0x80, whites := 0x06020400, kings := 0, turn := .Black } a)
      = .ok (some (.ok
        { blacks := 0x40000000, whites := 0x04000000, kings := 0x40000000, turn := .White })) := by
  decide

/-- C1: evaluation of the code at the failing input `B:W14,22:B10`.  The
generator produces the forced double jump `10-17-26`, whose action
validates Ok, but the resulting board stored in the pair has the chained
piece in the WHITE mask (blacks = 0, whites = 0x02000000) while
`take_action` of the very same action returns the piece in the black mask
(blacks = 0x02000000, whites = 0) — so `take_action(b, a)` differs from
the pair's stored resulting board, refuting the claim. -/
theorem C1_generator_result_mismatch :
    Bitboard.from_fen ("B:W14,22:B10".data)
      = .ok { blacks := 0x200, whites := 0x202000, kings := 0, turn := .Black } ∧
    (Bitboard.generate_all_actions
        { blacks := 0x200, whites := 0x202000, kings := 0, turn := .Black }).map
        (List.map (fun p => (p.action.movetext, p.state)))
      = some [(some ("10-17-26".data),
               { blacks := 0, whites := 0x02000000, kings := 0, turn := .White })] ∧
    (Bitboard.generate_all_actions
        { blacks := 0x200, whites := 0x202000, kings := 0, turn := .Black }).map
        (List.map (fun p => Bitboard.validate_action
          { blacks := 0x200, whites := 0x202000, kings := 0, turn := .Black } p.action))
      = some [some (.ok ())] ∧
    (Bitboard.generate_all_actions
        { blacks := 0x200, whites := 0x202000, kings := 0, turn := .Black }).map
        (List.map (fun p => Bitboard.take_action
          { blacks := 0x200, whites := 0x202000, kings := 0, turn := .Black } p.action))
      = some [some (.ok { blacks := 0x02000000, whites := 0, kings := 0, turn := .White })] ∧
    (Bitboard.generate_all_actions
        { blacks := 0x200, whites := 0x202000, kings := 0, turn := .Black }).map
        (List.map (fun p => decide (Bitboard.take_action
          { blacks := 0x200, whites := 0x202000, kings := 0, turn := .Black } p.action
            = some (.ok p.state))))
      = some [false] := by
  decide

/-- C4: evaluation of the code at the failing input `B:W14,22:B10`.  On
the default board the incremental Zobrist law holds for every generated
action (as the repo's own test checks), but for the double jump generated
on the failing board the law fails: the resulting board's hash differs
from the parent hash XORed with the pair's delta, because from the second
jump of a chain onward the generator hashes the moving piece with the
flipped turn color. -/
theorem C4_zobrist_delta_mismatch :
    (Bitboard.default.generate_all_actions).map
        (fun l => l.all (fun p =>
          decide (p.state.zobrist_hash = Bitboard.default.zobrist_hash ^^^ p.zobrist_diff)))
      = some true ∧
    Bitboard.from_fen ("B:W14,22:B10".data)
      = .ok { blacks := 0x200, whites := 0x202000, kings := 0, turn := .Black } ∧
    (Bitboard.generate_all_actions
        { blacks := 0x200, whites := 0x202000, kings := 0, turn := .Black }).map
        (List.map (fun p => decide (p.state.zobrist_hash
          = Bitboard.zobrist_hash
              { blacks := 0x200, whites := 0x202000, kings := 0, turn := .Black }
            ^^^ p.zobrist_diff)))
      = some [false] := by
  decide

/-- C7 counterexample: on the board parsed from `B:WK14,16:B9,11` (Black
to move, so the side to move is Max) the child list enumerated by
`generate_all_actions` — which `minmax_helper` iterates verbatim, with no
reordering (engine.rs lines 100 and 116) — is NOT in descending order of
static evaluation, refuting the claim that children are explored in the
side's optimization order of their static evaluation. -/
theorem C7_children_not_eval_ordered :
    Bitboard.from_fen ("B:WK14,16:B9,11".data)
      = .ok { blacks := 0x500, whites := 0xa000, kings := 0x2000, turn := .Black } ∧
    Color.optim .Black = .Max ∧
    (Bitboard.generate_all_actions
        { blacks := 0x500, whites := 0xa000, kings := 0x2000, turn := .Black }).map
        (fun l => chainDesc (l.map (fun p => evaluate p.state)))
      = some false := by
  decide

/-- C7 amended: at interior nodes `minmax_helper` explores the children in
exactly the order `generate_all_actions` produces them, with no
static-evaluation reordering; on the board parsed from `B:WK14,16:B9,11`
that order is `11-20` (evaluation 0) before `9-18` (evaluation 1) — the
opposite of the descending order the spec prescribes for Max. -/
theorem C7_children_in_generator_order :
    Bitboard.from_fen ("B:WK14,16:B9,11".data)
      = .ok { blacks := 0x500, whites := 0xa000, kings := 0x2000, turn := .Black } ∧
    (Bitboard.generate_all_actions
        { blacks := 0x500, whites := 0xa000, kings := 0x2000, turn := .Black }).map
        (List.map (fun p => (p.action.movetext, evaluate p.state)))
      = some [(some ("11-20".data), 0), (some ("9-18".data), 1)] := by
  decide

/-- C8 counterexample: on a board with no white pieces the `fen()` writer
does NOT render the white side as the bare letter `W` — the unconditional
`out.pop()` that strips the trailing comma removes the color letter
instead, producing `B::B12` rather than `B:W:B12`. -/
theorem C8_empty_side_loses_letter :
    Bitboard.fen { blacks := 0x800, whites := 0, kings := 0, turn := .Black } = "B::B12".data ∧
    "B::B12".data ≠ "B:W:B12".data := by
  decide

/-- C5 counterexample: probing a freshly constructed table (no saves ever
performed — the empty operation history) with the default board returns
`Some(score 0)` rather than `None`: empty slots store sentinel depth 255
together with the DEFAULT STATE, and probe's `depth >= d && state == s`
test matches them.  This refutes both the claimed None-on-virgin-table
behavior and, with it, the unconditional probe-soundness invariant. -/
theorem C5_fresh_table_probe_hit :
    TranspositionTable.probe (ttRun (TranspositionTable.fresh 1) []) 0 Bitboard.default 3
      = some (SVal.fin 0) := by
  decide

/-- C10: `from_movetext` accepts the same-row two-square input `1-4`
(index difference 3), encodes it as a simple move with `jump_len` 0 whose
`move_direction()` is `None`, and on any board where the side to move
occupies the source square, the destination is empty and no capture is
available, `take_action`/`validate_action` reaches the unguarded
`move_direction().unwrap()` and panics (modelled as `none`) instead of
returning an `ActionError` — the error path is not total. -/
theorem C10_move_direction_unwrap_panics (b : Bitboard)
    (hsrc : b.coloring_eq 0 b.turn = true)
    (hdst : b.is_empty 3 = true)
    (hjump : b.get_jumpers b.turn = 0) :
    Action.from_movetext ("1-4".data) = .ok ⟨96⟩ ∧
    Action.jump_len ⟨96⟩ = 0 ∧
    Action.move_direction ⟨96⟩ = none ∧
    b.take_action ⟨96⟩ = none ∧
    b.validate_action ⟨96⟩ = none := by
  have hsource : Action.source ⟨96⟩ = 0 := by decide
  have hdest : Action.destination ⟨96⟩ = 3 := by decide
  have htype : Action.action_type ⟨96⟩ = ActionType.Move := by decide
  have hmd : Action.move_direction ⟨96⟩ = none := by decide
  have htake : b.take_action ⟨96⟩ = none := by
    unfold Bitboard.take_action
    rw [hsource, hdest, htype, hmd]
    simp [hsrc, hdst, hjump]
  exact ⟨by decide, by decide, hmd, htake, by rw [Bitboard.validate_action, htake]; rfl⟩

/-- C10 witness: the hypotheses of `C10_move_direction_unwrap_panics` hold
at the concrete board with a black man on square 1, a white man on square
28 and Black to move, and there taking or validating `1-4` panics. -/
theorem C10_witness :
    Bitboard.take_action { blacks := 1, whites := 0x8000000, kings := 0, turn := .Black } ⟨96⟩
      = none ∧
    Bitboard.validate_action { blacks := 1, whites := 0x8000000, kings := 0, turn := .Black } ⟨96⟩
      = none :=
  ⟨(C10_move_direction_unwrap_panics
      { blacks := 1, whites := 0x8000000, kings := 0, turn := .Black }
      (by decide) (by decide) (by decide)).2.2.2.1,
   (C10_move_direction_unwrap_panics
      { blacks := 1, whites := 0x8000000, kings := 0, turn := .Black }
      (by decide) (by decide) (by decide)).2.2.2.2⟩


theorem saveCluster_mem {entry : TTEntry} {g : Nat} {c : List TTEntry} {e : TTEntry}
    (h : e ∈ saveCluster entry g c) : e = entry ∨ e ∈ c := by
  induction c with
  | nil => simp [saveCluster] at h
  | cons x rest ih =>
    unfold saveCluster at h
    split at h
    · rcases List.mem_cons.mp h with h1 | h1
      · exact Or.inl h1
      · exact Or.inr (List.mem_cons_of_mem _ h1)
    · rcases List.mem_cons.mp h with h1 | h1
      · exact Or.inr (h1 ▸ List.mem_cons_self _ _)
      · rcases ih h1 with h2 | h2
        · exact Or.inl h2
        · exact Or.inr (List.mem_cons_of_mem _ h2)

theorem probeCluster_some {s : Bitboard} {d : Nat} {c : List TTEntry} {v : SVal}
    (h : probeCluster s d c = some v) :
    ∃ e ∈ c, d ≤ e.depth ∧ e.state = s ∧ e.score = v := by
  induction c with
  | nil => simp [probeCluster] at h
  | cons x rest ih =>
    unfold probeCluster at h
    split at h
    · rename_i hcond
      exact ⟨x, List.mem_cons_self _ _, hcond.1, hcond.2, Option.some_inj.mp h⟩
    · obtain ⟨e, he, hh⟩ := ih h
      exact ⟨e, List.mem_cons_of_mem _ he, hh⟩

theorem tableOK_fresh (n : Nat) : TableOK n [] (TranspositionTable.fresh n) := by
  refine ⟨rfl, by simp [TranspositionTable.fresh], ?_⟩
  intro i hi e he
  left
  rw [TranspositionTable.fresh] at he
  simp only [List.getD_eq_getElem?_getD, List.getElem?_replicate] at he
  rw [if_pos hi] at he
  simp only [Option.getD_some] at he
  exact List.eq_of_mem_replicate he

theorem tableOK_step (n : Nat) (ops : List TTOp) (t : TranspositionTable) (op : TTOp)
    (h : TableOK n ops t) : TableOK n (ops ++ [op]) (ttStep t op) := by
  obtain ⟨hn, hlen, hinv⟩ := h
  have weaken : ∀ i, i < n → ∀ e ∈ t.clusters.getD i [], e = TTEntry.default ∨
      ∃ kp, TTOp.save kp e.state e.depth e.score ∈ ops ++ [op] ∧ kp % n = i := by
    intro i hi e he
    rcases hinv i hi e he with h1 | ⟨kp, hmem, hkp⟩
    · exact Or.inl h1
    · exact Or.inr ⟨kp, List.mem_append_left _ hmem, hkp⟩
  cases op with
  | newSearch => exact ⟨hn, hlen, weaken⟩
  | probeOp k s d => exact ⟨hn, hlen, weaken⟩
  | save k s d v =>
    refine ⟨hn, by simpa [ttStep, TranspositionTable.save] using hlen, ?_⟩
    intro i hi e he
    simp only [ttStep, TranspositionTable.save, List.getD_eq_getElem?_getD] at he
    rw [hn] at he
    by_cases hik : i = k % n
    · subst hik
      have hklt : k % n < t.clusters.length := by rw [hlen]; omega
      rw [List.getElem?_set_eq_of_lt _ hklt, Option.getD_some] at he
      rcases saveCluster_mem he with h1 | h1
      · subst h1
        exact Or.inr ⟨k, List.mem_append_right _ (List.mem_singleton.mpr rfl), rfl⟩
      · rcases hinv _ hi e (by rw [List.getD_eq_getElem?_getD]; exact h1) with h2 | ⟨kp, hmem, hkp⟩
        · exact Or.inl h2
        · exact Or.inr ⟨kp, List.mem_append_left _ hmem, hkp⟩
    · rw [List.getElem?_set_ne (fun hc => hik hc.symm)] at he
      exact weaken i hi e (by rw [List.getD_eq_getElem?_getD]; exact he)

theorem tableOK_run (n : Nat) (ops2 : List TTOp) :
    ∀ (ops1 : List TTOp) (t : TranspositionTable), TableOK n ops1 t →
      TableOK n (ops1 ++ ops2) (ttRun t ops2) := by
  induction ops2 with
  | nil => intro ops1 t h; simpa [ttRun] using h
  | cons op rest ih =>
    intro ops1 t h
    have step := tableOK_step n ops1 t op h
    have := ih (ops1 ++ [op]) (ttStep t op) step
    rw [List.append_assoc] at this
    simpa [ttRun] using this

/-- C5 amended: transposition-table probe soundness for non-sentinel
states.  Starting from a freshly constructed table with `n` clusters,
after any history of save / probe / new-search operations, a successful
`probe(k, s, d) = Some(v)` with `s` different from the default board (the
sentinel state carried by untouched slots) implies that some earlier
`save(k', s, d', v)` with `d' ≥ d` and `k' ≡ k (mod n)` was performed. -/
theorem C5_probe_sound_amended (n : Nat) (ops : List TTOp) (k : Nat) (s : Bitboard)
    (d : Nat) (v : SVal) (hs : s ≠ Bitboard.default)
    (hp : (ttRun (TranspositionTable.fresh n) ops).probe k s d = some v) :
    ∃ kp dp, TTOp.save kp s dp v ∈ ops ∧ d ≤ dp ∧ kp % n = k % n := by
  have hok : TableOK n ops (ttRun (TranspositionTable.fresh n) ops) := by
    have := tableOK_run n ops [] (TranspositionTable.fresh n) (tableOK_fresh n)
    simpa using this
  obtain ⟨hn, hlen, hinv⟩ := hok
  unfold TranspositionTable.probe at hp
  rw [hn] at hp
  obtain ⟨e, hmem, hdep, hstate, hscore⟩ := probeCluster_some hp
  have hnpos : 0 < n := by
    rcases Nat.eq_zero_or_pos n with h0 | h
    · subst h0
      have : (ttRun (TranspositionTable.fresh 0) ops).clusters = [] :=
        List.eq_nil_of_length_eq_zero hlen
      rw [this] at hmem
      simp at hmem
    · exact h
  rcases hinv (k % n) (Nat.mod_lt _ hnpos) e hmem with h1 | ⟨kp, hsave, hkp⟩
  · exact absurd (h1 ▸ hstate : TTEntry.default.state = s) (fun hc => hs hc.symm)
  · exact ⟨kp, e.depth, by rw [← hstate, ← hscore]; exact hsave, hdep, hkp⟩

/-- C5 witness: a concrete probe hit implies its save.  With a one-cluster
table and the single-operation history saving the board of FEN
`B:W14,22:B10` at depth 7 with score 3, probing that state at depth 6
yields `Some 3`, so the theorem produces the matching save. -/
theorem C5_probe_sound_witness :
    ∃ kp dp,
      TTOp.save kp { blacks := 0x200, whites := 0x202000, kings := 0, turn := .Black } dp
          (SVal.fin 3)
        ∈ [TTOp.save 5 { blacks := 0x200, whites := 0x202000, kings := 0, turn := .Black } 7
            (SVal.fin 3)] ∧
      6 ≤ dp ∧ kp % 1 = 5 % 1 :=
  C5_probe_sound_amended 1
    [TTOp.save 5 { blacks := 0x200, whites := 0x202000, kings := 0, turn := .Black } 7
      (SVal.fin 3)]
    5 { blacks := 0x200, whites := 0x202000, kings := 0, turn := .Black } 6 (SVal.fin 3)
    (by decide) (by decide)


theorem joinTrail_ne_nil {sep : Char} {l : List (List Char)} (h : l ≠ []) :
    joinTrail sep l ≠ [] := by
  cases l with
  | nil => exact absurd rfl h
  | cons s rest => simp [joinTrail]

theorem joinTrail_dropLast {sep : Char} {l : List (List Char)} (h : l ≠ []) :
    (joinTrail sep l).dropLast = List.intercalate [sep] l := by
  induction l with
  | nil => exact absurd rfl h
  | cons s rest ih =>
    cases rest with
    | nil => simp [joinTrail, List.intercalate]
    | cons y t =>
      have hr : joinTrail sep (y :: t) ≠ [] := joinTrail_ne_nil (by simp)
      calc (joinTrail sep (s :: y :: t)).dropLast
          = (s ++ [sep] ++ joinTrail sep (y :: t)).dropLast := by rw [joinTrail]
        _ = s ++ [sep] ++ (joinTrail sep (y :: t)).dropLast := by
            exact List.dropLast_append_of_ne_nil _ hr
        _ = s ++ [sep] ++ List.intercalate [sep] (y :: t) := by
            rw [ih (by simp)]
        _ = List.intercalate [sep] (s :: y :: t) := by
            simp [List.intercalate, List.intersperse]

theorem bitIdxAux_mem : ∀ (fuel m pos i : Nat), m < 2 ^ fuel →
    (i ∈ bitIdxAux fuel m pos ↔ pos ≤ i ∧ m.testBit (i - pos)) := by
  intro fuel
  induction fuel with
  | zero =>
    intro m pos i hm
    interval_cases m
    simp [bitIdxAux]
  | succ fuel ih =>
    intro m pos i hm
    by_cases h0 : m = 0
    · subst h0
      simp [bitIdxAux]
    · rw [bitIdxAux]
      rw [if_neg h0]
      have hm2 : m / 2 < 2 ^ fuel := by
        rw [Nat.div_lt_iff_lt_mul (by omega)]
        calc m < 2 ^ (fuel + 1) := hm
          _ = 2 ^ fuel * 2 := by ring
      constructor
      · intro hmem
        rcases List.mem_append.mp hmem with h1 | h1
        · have hodd : m % 2 = 1 := by
            by_contra hc
            simp [hc] at h1
          rw [if_pos hodd] at h1
          have : i = pos := by simpa using h1
          subst this
          simp [Nat.testBit_zero, hodd]
        · obtain ⟨hle, hbit⟩ := (ih (m / 2) (pos + 1) i hm2).mp h1
          refine ⟨by omega, ?_⟩
          have : i - pos = (i - (pos + 1)) + 1 := by omega
          rw [this, Nat.testBit_add_one]
          exact hbit
      · rintro ⟨hle, hbit⟩
        rcases Nat.eq_or_lt_of_le hle with heq | hlt
        · subst heq
          simp only [Nat.sub_self, Nat.testBit_zero] at hbit
          have hodd : m % 2 = 1 := by simpa using hbit
          exact List.mem_append_left _ (by rw [if_pos hodd]; exact List.mem_singleton.mpr rfl)
        · have : i - pos = (i - (pos + 1)) + 1 := by omega
          rw [this, Nat.testBit_add_one] at hbit
          exact List.mem_append_right _ ((ih (m / 2) (pos + 1) i hm2).mpr ⟨by omega, hbit⟩)


theorem bitIdxAux_sorted : ∀ (fuel m pos : Nat), m < 2 ^ fuel →
    List.Sorted (· < ·) (bitIdxAux fuel m pos) := by
  intro fuel
  induction fuel with
  | zero => intro m pos hm; interval_cases m; simp [bitIdxAux]
  | succ fuel ih =>
    intro m pos hm
    by_cases h0 : m = 0
    · subst h0; simp [bitIdxAux]
    · rw [bitIdxAux, if_neg h0]
      have hm2 : m / 2 < 2 ^ fuel := by
        rw [Nat.div_lt_iff_lt_mul (by omega)]
        calc m < 2 ^ (fuel + 1) := hm
          _ = 2 ^ fuel * 2 := by ring
      have htail := ih (m / 2) (pos + 1) hm2
      by_cases hodd : m % 2 = 1
      · rw [if_pos hodd]
        simp only [List.singleton_append]
        refine List.sorted_cons.mpr ⟨?_, htail⟩
        intro b hb
        have := (bitIdxAux_mem fuel (m / 2) (pos + 1) b hm2).mp hb
        omega
      · rw [if_neg hodd]
        simpa using htail

theorem bitIdxAux_ne_nil : ∀ (fuel m pos : Nat), m < 2 ^ fuel → m ≠ 0 →
    bitIdxAux fuel m pos ≠ [] := by
  intro fuel
  induction fuel with
  | zero => intro m pos hm h0; omega
  | succ fuel ih =>
    intro m pos hm h0
    rw [bitIdxAux, if_neg h0]
    by_cases hodd : m % 2 = 1
    · rw [if_pos hodd]; simp
    · rw [if_neg hodd]
      have hm2 : m / 2 < 2 ^ fuel := by
        rw [Nat.div_lt_iff_lt_mul (by omega)]
        calc m < 2 ^ (fuel + 1) := hm
          _ = 2 ^ fuel * 2 := by ring
      have h20 : m / 2 ≠ 0 := by omega
      simpa using ih (m / 2) (pos + 1) hm2 h20

theorem fenPiecesAux_eq_joinTrail (kings : Nat) : ∀ (fuel m pos : Nat),
    fenPiecesAux kings fuel m (pos + 1)
      = joinTrail (Char.ofNat 44) ((bitIdxAux fuel m pos).map (fun i => pieceText kings (i + 1))) := by
  intro fuel
  induction fuel with
  | zero => intro m pos; simp [fenPiecesAux, bitIdxAux, joinTrail]
  | succ fuel ih =>
    intro m pos
    rw [fenPiecesAux, bitIdxAux]
    by_cases h0 : m = 0
    · rw [if_pos h0, if_pos h0]
      simp [joinTrail]
    · rw [if_neg h0, if_neg h0]
      rw [List.map_append]
      have hjoin : ∀ (a b : List (List Char)),
          joinTrail (Char.ofNat 44) (a ++ b)
            = joinTrail (Char.ofNat 44) a ++ joinTrail (Char.ofNat 44) b := by
        intro a b
        induction a with
        | nil => simp [joinTrail]
        | cons x rest iha => simp [joinTrail, iha]
      rw [hjoin]
      have htail := ih (m / 2) (pos + 1)
      by_cases hodd : m % 2 = 1
      · rw [if_pos hodd, if_pos hodd]
        simp only [List.map_cons, List.map_nil]
        rw [joinTrail, joinTrail]
        have hpt : pieceText kings (pos + 1)
            = (if (kings >>> (pos + 1 - 1)) % 2 = 1 then [Char.ofNat 75] else [])
              ++ digitsOf (pos + 1) := by
          rw [pieceText]
        rw [hpt]
        simp only [List.append_nil, Nat.add_sub_cancel]
        rw [htail]
      · rw [if_neg hodd, if_neg hodd]
        simp only [List.map_nil, joinTrail, List.nil_append]
        exact htail

/-- C8 amended: for a board whose two sides are both nonempty (masks below
`2^32`), `fen()` renders exactly the turn letter, `:W`, White's occupied
squares in strictly ascending order (K-prefixed when kinged,
comma-separated), then `:B` and Black's squares likewise — together with
the ascending-order and exact-occupancy facts for the emitted square
lists.  (When a side is empty the writer instead deletes that side's
color letter; see the counterexample.) -/
theorem C8_fen_ascending_amended (b : Bitboard)
    (hw : b.whites < 2 ^ 32) (hb : b.blacks < 2 ^ 32)
    (hw0 : b.whites ≠ 0) (hb0 : b.blacks ≠ 0) :
    b.fen = fenSpec b ∧
    List.Sorted (· < ·) (bitIdx b.whites) ∧
    List.Sorted (· < ·) (bitIdx b.blacks) ∧
    (∀ i, i ∈ bitIdx b.whites ↔ b.whites.testBit i) ∧
    (∀ i, i ∈ bitIdx b.blacks ↔ b.blacks.testBit i) := by
  have memw : ∀ i, i ∈ bitIdx b.whites ↔ b.whites.testBit i := by
    intro i
    rw [bitIdx, bitIdxAux_mem 32 b.whites 0 i hw]
    simp
  have memb : ∀ i, i ∈ bitIdx b.blacks ↔ b.blacks.testBit i := by
    intro i
    rw [bitIdx, bitIdxAux_mem 32 b.blacks 0 i hb]
    simp
  refine ⟨?_, bitIdxAux_sorted 32 b.whites 0 hw, bitIdxAux_sorted 32 b.blacks 0 hb, memw, memb⟩
  have hwzero : (1 : Nat) = 0 + 1 := rfl
  have hWlist : fenPiecesAux b.kings 32 b.whites 1
      = joinTrail (Char.ofNat 44) ((bitIdx b.whites).map (fun i => pieceText b.kings (i + 1))) :=
    fenPiecesAux_eq_joinTrail b.kings 32 b.whites 0
  have hBlist : fenPiecesAux b.kings 32 b.blacks 1
      = joinTrail (Char.ofNat 44) ((bitIdx b.blacks).map (fun i => pieceText b.kings (i + 1))) :=
    fenPiecesAux_eq_joinTrail b.kings 32 b.blacks 0
  have hWne : (bitIdx b.whites).map (fun i => pieceText b.kings (i + 1)) ≠ [] := by
    simp only [ne_eq, List.map_eq_nil_iff]
    exact bitIdxAux_ne_nil 32 b.whites 0 hw hw0
  have hBne : (bitIdx b.blacks).map (fun i => pieceText b.kings (i + 1)) ≠ [] := by
    simp only [ne_eq, List.map_eq_nil_iff]
    exact bitIdxAux_ne_nil 32 b.blacks 0 hb hb0
  rw [Bitboard.fen, fenSpec, hWlist, hBlist]
  rw [List.dropLast_append_of_ne_nil _ (joinTrail_ne_nil hWne)]
  rw [List.dropLast_append_of_ne_nil _ (joinTrail_ne_nil hBne)]
  rw [joinTrail_dropLast hWne, joinTrail_dropLast hBne]
  rw [sideText, sideText, List.map_map, List.map_map]
  rfl

/-- C8 witness: the amended rendering at the board of FEN
`B:W18,24,27,28,K10,K15:B12,16,20,K22,K25,K29`. -/
theorem C8_fen_ascending_witness :
    Bitboard.fen { blacks := 0x11288800, whites := 0x0c824200, kings := 0x11204200, turn := .Black }
      = fenSpec { blacks := 0x11288800, whites := 0x0c824200, kings := 0x11204200, turn := .Black } :=
  (C8_fen_ascending_amended
    { blacks := 0x11288800, whites := 0x0c824200, kings := 0x11204200, turn := .Black }
    (by decide) (by decide) (by decide) (by decide)).1

theorem lor_lowhigh : ∀ (k a t : Nat), a < 2 ^ k → a ||| (t <<< k) = a + t * 2 ^ k := by
  intro k
  induction k with
  | zero =>
    intro a t h
    interval_cases a
    simp [Nat.shiftLeft_eq]
  | succ k ih =>
    intro a t h
    have ha2 : a / 2 < 2 ^ k := by
      have : 2 ^ (k + 1) = 2 ^ k * 2 := by ring
      omega
    have hrec := ih (a / 2) t ha2
    have hsh : t <<< (k + 1) = Nat.bit false (t <<< k) := by
      rw [Nat.bit_val, Nat.shiftLeft_eq, Nat.shiftLeft_eq, Nat.pow_succ]
      simp
      ring
    calc a ||| (t <<< (k + 1))
        = Nat.bit a.bodd a.div2 ||| Nat.bit false (t <<< k) := by rw [Nat.bit_decomp, hsh]
      _ = Nat.bit (a.bodd || false) (a.div2 ||| (t <<< k)) := Nat.lor_bit _ _ _ _
      _ = Nat.bit a.bodd (a / 2 + t * 2 ^ k) := by rw [Bool.or_false, Nat.div2_val, hrec]
      _ = 2 * (a / 2 + t * 2 ^ k) + a.bodd.toNat := by rw [Nat.bit_val]
      _ = a + t * 2 ^ (k + 1) := by
          have hb : a % 2 = a.bodd.toNat := Nat.mod_two_of_bodd a
          have hp : 2 ^ (k + 1) = 2 ^ k * 2 := by ring
          rw [hp, ← Nat.mul_assoc]
          omega

theorem pair_round_trip : ∀ p, p < 33 → ∀ q, q < 33 → validSeq [p, q] = true →
    roundTripOK [p, q] = true := by
  decide

theorem jump_pair_dir : ∀ a, a < 32 → ∀ b, b < 32 → isJumpPair a b = true →
    ∃ d, dirOfJumpDiff ((b : Int) - (a : Int)) = some d ∧ d.relative_jump_from a = some b := by
  decide

theorem jump_pair_diff : ∀ a, a < 32 → ∀ b, b < 32 → isJumpPair a b = true →
    max a b - min a b = 7 ∨ max a b - min a b = 9 := by
  decide

theorem digits_ok : ∀ q, q < 32 →
    (digitsOf (q + 1) ≠ [] ∧ Char.ofNat 45 ∉ digitsOf (q + 1) ∧
      parseU8 (digitsOf (q + 1)) = some (q + 1)) := by
  decide


theorem toU2_lt (d : Direction) : d.toU2 < 4 := by cases d <;> decide

theorem jumpDirs_of_chain : ∀ qs : List Nat, (∀ x ∈ qs, x < 32) → chainJumps qs = true →
    ∃ ds, jumpDirsAux qs = some ds ∧ ds.length = qs.length - 1 := by
  intro qs
  induction qs with
  | nil => intro _ _; exact ⟨[], rfl, rfl⟩
  | cons p rest ih =>
    intro hall hchain
    cases rest with
    | nil => exact ⟨[], rfl, rfl⟩
    | cons q rest2 =>
      rw [chainJumps] at hchain
      simp only [Bool.and_eq_true] at hchain
      obtain ⟨hpq, hch2⟩ := hchain
      obtain ⟨ds2, hds2, hlen2⟩ := ih (fun x hx => hall x (List.mem_cons_of_mem _ hx)) hch2
      obtain ⟨d, hd, _⟩ := jump_pair_dir p (hall p (List.mem_cons_self _ _)) q
        (hall q (List.mem_cons_of_mem _ (List.mem_cons_self _ _))) hpq
      refine ⟨d :: ds2, ?_, ?_⟩
      · rw [jumpDirsAux, hd, hds2]
        rfl
      · simp at hlen2 ⊢
        omega

theorem encodeSpec : ∀ (qs : List Nat) (i data : Nat) (ds : List Direction),
    jumpDirsAux qs = some ds → data < 2 ^ (i * 2 + 15) →
    ∃ data2, encodeJumps qs i data = .ok data2 ∧
      data2 % 2 ^ (i * 2 + 15) = data ∧
      data2 < 2 ^ ((i + ds.length) * 2 + 15) ∧
      ∀ j, (hj : j < ds.length) →
        (data2 >>> ((i + j) * 2 + 15)) % 4 = (ds.get ⟨j, hj⟩).toU2 := by
  intro qs
  induction qs with
  | nil =>
    intro i data ds hds hlt
    have hnil : ds = [] := by simpa [jumpDirsAux] using hds.symm
    subst hnil
    exact ⟨data, rfl, Nat.mod_eq_of_lt hlt, by simpa using hlt, fun j hj => by simp at hj⟩
  | cons p rest ih =>
    intro i data ds hds hlt
    cases rest with
    | nil =>
      have hnil : ds = [] := by simpa [jumpDirsAux] using hds.symm
      subst hnil
      exact ⟨data, rfl, Nat.mod_eq_of_lt hlt, by simpa using hlt, fun j hj => by simp at hj⟩
    | cons q rest2 =>
      rw [jumpDirsAux] at hds
      cases hdir : dirOfJumpDiff ((q : Int) - (p : Int)) with
      | none => rw [hdir] at hds; cases hds
      | some d =>
        rw [hdir] at hds
        cases hrec : jumpDirsAux (q :: rest2) with
        | none => rw [hrec] at hds; cases hds
        | some ds2 =>
          rw [hrec] at hds
          simp only [Option.map_some] at hds
          cases hds
          set K := 2 ^ (i * 2 + 15) with hK
          have hKpos : 0 < K := Nat.pos_pow_of_pos _ (by omega)
          have hKsucc : 2 ^ ((i + 1) * 2 + 15) = 4 * K := by
            rw [hK]
            have : (i + 1) * 2 + 15 = (i * 2 + 15) + 2 := by omega
            rw [this, Nat.pow_add]
            ring
          have htU : d.toU2 < 4 := toU2_lt d
          have hdata2lt : data + d.toU2 * K < 2 ^ ((i + 1) * 2 + 15) := by
            rw [hKsucc]
            have h1 : d.toU2 * K ≤ 3 * K := Nat.mul_le_mul_right _ (by omega)
            omega
          have hlor : data ||| (d.toU2 <<< (i * 2 + 15)) = data + d.toU2 * K :=
            lor_lowhigh _ _ _ hlt
          obtain ⟨data2, henc, hmod, hbound, hext⟩ :=
            ih (i + 1) (data + d.toU2 * K) ds2 hrec hdata2lt
          refine ⟨data2, ?_, ?_, ?_, ?_⟩
          · rw [encodeJumps, hdir]
            show encodeJumps (q :: rest2) (i + 1) (data ||| d.toU2 <<< (i * 2 + 15))
              = Except.ok data2
            rw [hlor]
            exact henc
          · have hdvd : K ∣ 2 ^ ((i + 1) * 2 + 15) := ⟨4, by rw [hKsucc]; ring⟩
            calc data2 % K = data2 % 2 ^ ((i + 1) * 2 + 15) % K := by
                  rw [Nat.mod_mod_of_dvd _ hdvd]
              _ = (data + d.toU2 * K) % K := by rw [hmod]
              _ = data % K := by rw [Nat.add_mul_mod_self_right]
              _ = data := Nat.mod_eq_of_lt hlt
          · have : (i + (d :: ds2).length) * 2 + 15 = (i + 1 + ds2.length) * 2 + 15 := by
              simp
              omega
            rw [this]
            exact hbound
          · intro j hj
            cases j with
            | zero =>
              set Q := data2 / 2 ^ ((i + 1) * 2 + 15) with hQdef
              have hQ : data2 = 2 ^ ((i + 1) * 2 + 15) * Q + (data + d.toU2 * K) := by
                conv_lhs => rw [← Nat.div_add_mod data2 (2 ^ ((i + 1) * 2 + 15))]
                rw [hmod]
              rw [hKsucc] at hQ
              have harr : data2 = data + K * (d.toU2 + 4 * Q) := by
                conv_lhs => rw [hQ]
                ring
              have hdiv : data2 / K = d.toU2 + 4 * Q := by
                conv_lhs => rw [harr]
                rw [Nat.add_mul_div_left _ _ hKpos, Nat.div_eq_of_lt hlt, Nat.zero_add]
              have hidx0 : (i + 0) * 2 + 15 = i * 2 + 15 := by omega
              rw [hidx0, Nat.shiftRight_eq_div_pow, ← hK, hdiv]
              simp only [List.get]
              omega
            | succ j2 =>
              have hidx : (i + (j2 + 1)) * 2 + 15 = (i + 1 + j2) * 2 + 15 := by omega
              rw [hidx]
              have hj2 : j2 < ds2.length := by
                simp at hj
                omega
              have := hext j2 hj2
              simpa using this

theorem from_vector_jump (p0 : Nat) (rest : List Nat)
    (hall : ∀ x ∈ p0 :: rest, 1 ≤ x ∧ x ≤ 32)
    (hlen9 : (p0 :: rest).length ≤ 9)
    (hlen3 : 3 ≤ (p0 :: rest).length)
    (hchain : chainJumps ((p0 :: rest).map (· - 1)) = true) :
    ∃ data2 ds,
      Action.from_vector (p0 :: rest) = .ok ⟨data2⟩ ∧
      jumpDirsAux ((p0 :: rest).map (· - 1)) = some ds ∧
      ds.length = rest.length ∧
      Action.source ⟨data2⟩ = p0 - 1 ∧
      Action.destination ⟨data2⟩ = (p0 :: rest).getLast (by simp) - 1 ∧
      Action.jump_len ⟨data2⟩ = rest.length ∧
      ∀ j, (hj : j < ds.length) →
        Action.jump_direction ⟨data2⟩ j = some (ds.get ⟨j, hj⟩) := by
  have hmapwrap : (p0 :: rest).map (fun x => (x + 255) % 256) = (p0 :: rest).map (· - 1) := by
    apply List.map_congr_left
    intro x hx
    have := hall x hx
    omega
  have hqsall : ∀ x ∈ (p0 :: rest).map (· - 1), x < 32 := by
    intro x hx
    obtain ⟨y, hy, hyx⟩ := List.mem_map.mp hx
    have := hall y hy
    omega
  obtain ⟨ds, hds, hdslen⟩ := jumpDirs_of_chain _ hqsall hchain
  have hdslen2 : ds.length = rest.length := by
    rw [hdslen]
    simp
  have hq0lt : p0 - 1 < 32 := by
    have := hall p0 (List.mem_cons_self _ _)
    omega
  have hgl : ((p0 :: rest).map (· - 1)).getLast (by simp) = (p0 :: rest).getLast (by simp) - 1 := by
    rw [List.getLast_map]
  have hfind : List.find? (fun x => decide (31 < x)) ((p0 :: rest).map (· - 1)) = none := by
    rw [List.find?_eq_none]
    intro x hx
    simpa using Nat.not_lt.mpr (Nat.le_of_lt_succ (by simpa using hqsall x hx))
  have hlenmap : ((p0 :: rest).map (· - 1)).length = rest.length + 1 := by simp
  have hlencond : ¬ (((p0 :: rest).map (· - 1)).length < 2 ∨
      9 < ((p0 :: rest).map (· - 1)).length) := by
    simp only [hlenmap]
    simp at hlen3 hlen9
    omega
  set q0 := p0 - 1 with hq0
  set qL := ((p0 :: rest).map (· - 1)).getLast (by simp) with hqL
  have hqLlt : qL < 32 := hqsall _ (List.getLast_mem _)
  have hq0lt2 : q0 < 2 ^ 5 := by norm_num; omega
  have h1 : q0 ||| (qL <<< 5) = q0 + qL * 32 := by
    have := lor_lowhigh 5 q0 qL hq0lt2
    norm_num at this
    exact this
  have h2 : q0 + qL * 32 < 2 ^ 10 := by norm_num; omega
  have h3 : (q0 + qL * 32) ||| (rest.length <<< 10) = q0 + qL * 32 + rest.length * 1024 := by
    have := lor_lowhigh 10 (q0 + qL * 32) rest.length h2
    norm_num at this
    exact this
  have hc8 : rest.length ≤ 8 := by simp at hlen9; omega
  have hbaselt : q0 + qL * 32 + rest.length * 1024 < 2 ^ (0 * 2 + 15) := by
    norm_num
    omega
  have hbase : (q0 ||| qL <<< 5) ||| (rest.length <<< 10) = q0 + qL * 32 + rest.length * 1024 := by
    rw [h1, h3]
  obtain ⟨data2, henc, hmod, hbound, hext⟩ :=
    encodeSpec ((p0 :: rest).map (· - 1)) 0 (q0 + qL * 32 + rest.length * 1024) ds hds hbaselt
  have hmod15 : data2 % 32768 = q0 + qL * 32 + rest.length * 1024 := by
    have := hmod
    norm_num at this
    exact this
  have hsource : Action.source ⟨data2⟩ = q0 := by
    rw [Action.source]
    have h31 : data2 &&& 31 = data2 % 32 := by
      have := Nat.and_pow_two_sub_one_eq_mod data2 5
      norm_num at this
      exact this
    rw [h31]
    omega
  have hdest : Action.destination ⟨data2⟩ = qL := by
    rw [Action.destination]
    have h31 : (data2 >>> 5) &&& 31 = (data2 >>> 5) % 32 := by
      have := Nat.and_pow_two_sub_one_eq_mod (data2 >>> 5) 5
      norm_num at this
      exact this
    rw [h31, Nat.shiftRight_eq_div_pow]
    norm_num
    omega
  have hjl : Action.jump_len ⟨data2⟩ = rest.length := by
    rw [Action.jump_len]
    have h15 : (data2 >>> 10) &&& 15 = (data2 >>> 10) % 16 := by
      have := Nat.and_pow_two_sub_one_eq_mod (data2 >>> 10) 4
      norm_num at this
      exact this
    rw [h15, Nat.shiftRight_eq_div_pow]
    norm_num
    omega
  have hrlen : 2 ≤ rest.length := by
    simp at hlen3
    omega
  refine ⟨data2, ds, ?_, hds, hdslen2, hsource, by rw [hdest]; exact hgl, hjl, ?_⟩
  · simp only [Action.from_vector]
    rw [hmapwrap, hfind, if_neg hlencond]
    simp only [List.map_cons]
    rw [if_pos (Or.inl (by simp; omega))]
    have hbase2 : ((p0 - 1) ||| ((p0 - 1) :: rest.map (· - 1)).getLast (by simp) <<< 5) |||
        ((((p0 - 1) :: rest.map (· - 1)).length - 1) <<< 10)
          = q0 + qL * 32 + rest.length * 1024 := by
      have hlast : ((p0 - 1) :: rest.map (· - 1)).getLast (by simp) = qL := by
        rw [hqL]
        simp
      rw [hlast]
      have hlen2 : ((p0 - 1) :: rest.map (· - 1)).length - 1 = rest.length := by simp
      rw [hlen2]
      exact hbase
    rw [hbase2]
    have henc2 : encodeJumps ((p0 - 1) :: rest.map (· - 1)) 0
        (q0 + qL * 32 + rest.length * 1024) = .ok data2 := by
      have hmapeq : (p0 :: rest).map (· - 1) = (p0 - 1) :: rest.map (· - 1) := by simp
      rw [← hmapeq]
      exact henc
    rw [henc2]
    rfl
  · intro j hj
    have hjlt : j < rest.length := by omega
    rw [Action.jump_direction, if_neg (by rw [hjl]; omega)]
    have hv : (data2 >>> (j * 2 + 15)) &&& 3 = (ds.get ⟨j, hj⟩).toU2 := by
      have h3m : (data2 >>> (j * 2 + 15)) &&& 3 = (data2 >>> (j * 2 + 15)) % 4 := by
        have := Nat.and_pow_two_sub_one_eq_mod (data2 >>> (j * 2 + 15)) 2
        norm_num at this
        exact this
      rw [h3m]
      have := hext j hj
      simpa using this
    rw [hv]
    cases ds.get ⟨j, hj⟩ <;> simp [Direction.toU2]


theorem chainJumps_infix : ∀ (pre : List Nat) (cur q : Nat) (suf qs : List Nat),
    qs = pre ++ cur :: q :: suf → chainJumps qs = true → isJumpPair cur q = true := by
  intro pre
  induction pre with
  | nil =>
    intro cur q suf qs hqs hch
    subst hqs
    rw [List.nil_append, chainJumps] at hch
    simp only [Bool.and_eq_true] at hch
    exact hch.1
  | cons x pre2 ih =>
    intro cur q suf qs hqs hch
    subst hqs
    cases hp : pre2 ++ cur :: q :: suf with
    | nil => simp at hp
    | cons y t =>
      rw [List.cons_append, hp, chainJumps] at hch
      simp only [Bool.and_eq_true] at hch
      have hch2 := hch.2
      rw [← hp] at hch2
      exact ih cur q suf _ rfl hch2

theorem jumpDirsAux_pair : ∀ (pre : List Nat) (qs : List Nat) (ds : List Direction)
    (cur q : Nat) (suf : List Nat), jumpDirsAux qs = some ds →
    qs = pre ++ cur :: q :: suf →
    ∃ hl : pre.length < ds.length,
      dirOfJumpDiff ((q : Int) - (cur : Int)) = some (ds.get ⟨pre.length, hl⟩) := by
  intro pre
  induction pre with
  | nil =>
    intro qs ds cur q suf hds hqs
    subst hqs
    rw [List.nil_append] at hds
    rw [jumpDirsAux] at hds
    cases hdir : dirOfJumpDiff ((q : Int) - (cur : Int)) with
    | none => rw [hdir] at hds; cases hds
    | some d =>
      rw [hdir] at hds
      cases hrec : jumpDirsAux (q :: suf) with
      | none => rw [hrec] at hds; cases hds
      | some ds2 =>
        rw [hrec] at hds
        simp only [Option.map_some] at hds
        cases hds
        exact ⟨by simp, rfl⟩
  | cons x pre2 ih =>
    intro qs ds cur q suf hds hqs
    subst hqs
    have hne : pre2 ++ cur :: q :: suf ≠ [] := by simp
    cases hp : pre2 ++ cur :: q :: suf with
    | nil => exact absurd hp hne
    | cons y t =>
      rw [List.cons_append, hp, jumpDirsAux] at hds
      cases hdir : dirOfJumpDiff ((y : Int) - (x : Int)) with
      | none => rw [hdir] at hds; cases hds
      | some d =>
        rw [hdir] at hds
        cases hrec : jumpDirsAux (y :: t) with
        | none => rw [hrec] at hds; cases hds
        | some ds2 =>
          rw [hrec] at hds
          simp only [Option.map_some] at hds
          cases hds
          rw [← hp] at hrec
          obtain ⟨hl, hdir2⟩ := ih _ ds2 cur q suf hrec rfl
          exact ⟨by simp; omega, by simpa using hdir2⟩

theorem movetextWalk_run (a : Action) (qs : List Nat) (ds : List Direction)
    (hqs32 : ∀ x ∈ qs, x < 32)
    (hchain : chainJumps qs = true)
    (hds : jumpDirsAux qs = some ds)
    (hdsql : ds.length + 1 = qs.length)
    (hjl : a.jump_len = ds.length)
    (hdirs : ∀ j, (hj : j < ds.length) → a.jump_direction j = some (ds.get ⟨j, hj⟩)) :
    ∀ (suf pre : List Nat) (cur : Nat) (acc : List Char),
      qs = pre ++ cur :: suf →
      movetextWalk a suf.length cur acc
        = some (acc ++ joinTrail (Char.ofNat 45) (suf.map (fun q => digitsOf (q + 1)))) := by
  intro suf
  induction suf with
  | nil =>
    intro pre cur acc hqs
    simp [movetextWalk, joinTrail]
  | cons q suf2 ih =>
    intro pre cur acc hqs
    have hql : qs.length = pre.length + suf2.length + 2 := by
      rw [hqs]
      simp
      omega
    have hpre_lt : pre.length < ds.length := by omega
    have hidx : a.jump_len - (suf2.length + 1) = pre.length := by omega
    obtain ⟨hl, hdir⟩ := jumpDirsAux_pair pre qs ds cur q suf2 hds hqs
    have hcur32 : cur < 32 := hqs32 cur (by rw [hqs]; exact List.mem_append_right _ (List.mem_cons_self _ _))
    have hq32 : q < 32 := by
      refine hqs32 q ?_
      rw [hqs]
      exact List.mem_append_right _ (List.mem_cons_of_mem _ (List.mem_cons_self _ _))
    have hpair : isJumpPair cur q = true := chainJumps_infix pre cur q suf2 qs hqs hchain
    obtain ⟨d2, hd2, hrel⟩ := jump_pair_dir cur hcur32 q hq32 hpair
    have hdeq : ds.get ⟨pre.length, hl⟩ = d2 := by
      rw [hdir] at hd2
      exact Option.some_inj.mp hd2
    show movetextWalk a (suf2.length + 1) cur acc = _
    rw [movetextWalk, hidx, hdirs pre.length hpre_lt, hdeq]
    simp only [hrel]
    have := ih (pre ++ [cur]) q (acc ++ digitsOf (q + 1) ++ [Char.ofNat 45])
      (by rw [hqs]; simp)
    rw [this]
    simp [joinTrail]


theorem splitOnChar_ne_nil (c : Char) (s : List Char) : splitOnChar c s ≠ [] := by
  cases s with
  | nil => simp [splitOnChar]
  | cons x xs =>
    rw [splitOnChar]
    cases h : splitOnChar c xs with
    | nil => simp
    | cons r rs =>
      by_cases hx : x = c <;> simp [hx]

theorem splitOnChar_no_sep : ∀ (c : Char) (s : List Char), c ∉ s → splitOnChar c s = [s] := by
  intro c s
  induction s with
  | nil => intro _; rfl
  | cons x xs ih =>
    intro hmem
    have hx : x ≠ c := fun hc => hmem (hc ▸ List.mem_cons_self _ _)
    have hxs : c ∉ xs := fun hc => hmem (List.mem_cons_of_mem _ hc)
    rw [splitOnChar, ih hxs]
    simp [hx]

theorem splitOnChar_append : ∀ (c : Char) (s rest : List Char), c ∉ s →
    splitOnChar c (s ++ c :: rest) = s :: splitOnChar c rest := by
  intro c s
  induction s with
  | nil =>
    intro rest _
    rw [List.nil_append, splitOnChar]
    cases h : splitOnChar c rest with
    | nil => exact absurd h (splitOnChar_ne_nil c rest)
    | cons r rs => simp
  | cons x xs ih =>
    intro rest hmem
    have hx : x ≠ c := fun hc => hmem (hc ▸ List.mem_cons_self _ _)
    have hxs : c ∉ xs := fun hc => hmem (List.mem_cons_of_mem _ hc)
    rw [List.cons_append, splitOnChar, ih rest hxs]
    simp [hx]

theorem splitOnChar_intercalate : ∀ (c : Char) (parts : List (List Char)), parts ≠ [] →
    (∀ p ∈ parts, c ∉ p) → splitOnChar c (List.intercalate [c] parts) = parts := by
  intro c parts
  induction parts with
  | nil => intro h _; exact absurd rfl h
  | cons p rest ih =>
    intro _ hmem
    cases rest with
    | nil =>
      have : List.intercalate [c] [p] = p := by simp [List.intercalate]
      rw [this]
      exact splitOnChar_no_sep c p (hmem p (List.mem_cons_self _ _))
    | cons y t =>
      have hic : List.intercalate [c] (p :: y :: t) = p ++ c :: List.intercalate [c] (y :: t) := by
        simp [List.intercalate, List.intersperse]
      rw [hic, splitOnChar_append c p _ (hmem p (List.mem_cons_self _ _))]
      rw [ih (by simp) (fun x hx => hmem x (List.mem_cons_of_mem _ hx))]

theorem parseSegments_digits : ∀ qs : List Nat, (∀ x ∈ qs, x < 32) →
    parseSegments (qs.map (fun q => digitsOf (q + 1))) = .ok (qs.map (· + 1)) := by
  intro qs
  induction qs with
  | nil => intro _; rfl
  | cons q rest ih =>
    intro hall
    have hq := digits_ok q (hall q (List.mem_cons_self _ _))
    rw [List.map_cons, parseSegments, hq.2.2]
    rw [ih (fun x hx => hall x (List.mem_cons_of_mem _ hx))]
    rfl

theorem map_sub_add : ∀ ps : List Nat, (∀ x ∈ ps, 1 ≤ x) → (ps.map (· - 1)).map (· + 1) = ps := by
  intro ps
  induction ps with
  | nil => intro _; rfl
  | cons p rest ih =>
    intro hall
    have hp := hall p (List.mem_cons_self _ _)
    simp only [List.map_cons]
    rw [ih (fun x hx => hall x (List.mem_cons_of_mem _ hx))]
    congr 1
    omega

theorem roundTripOK_extract {ps : List Nat} (h : roundTripOK ps = true) :
    ∃ a mt, Action.from_vector ps = .ok a ∧ a.movetext = some mt ∧
      Action.from_movetext mt = .ok a := by
  rw [roundTripOK] at h
  cases hfv : Action.from_vector ps with
  | error e => rw [hfv] at h; cases h
  | ok a =>
    rw [hfv] at h
    have h2 : (match a.movetext with
        | none => false
        | some mt => decide (Action.from_movetext mt = Except.ok a)) = true := h
    cases hmt : a.movetext with
    | none => rw [hmt] at h2; cases h2
    | some mt =>
      rw [hmt] at h2
      exact ⟨a, mt, rfl, hmt, of_decide_eq_true h2⟩


/-- C9: movetext round trip.  For every action constructible from legal
movetext — a position sequence that is either a single diagonal step or a
chain of up to 8 diagonal jumps — rendering the action back to movetext
succeeds and re-parsing the rendered text returns an action with the same
packed 32-bit encoding. -/
theorem C9_movetext_round_trip (ps : List Nat) (h : validSeq ps = true) :
    ∃ a mt, Action.from_vector ps = .ok a ∧ a.movetext = some mt ∧
      Action.from_movetext mt = .ok a := by
  rcases ps with _ | ⟨p0, _ | ⟨p1, _ | ⟨p2, rest3⟩⟩⟩
  · simp [validSeq] at h
  · simp [validSeq] at h
  · have hall : ∀ x ∈ [p0, p1], 1 ≤ x ∧ x ≤ 32 := by
      have h2 := h
      rw [validSeq] at h2
      simp only [Bool.and_eq_true] at h2
      intro x hx
      have := List.all_eq_true.mp h2.1 x hx
      simp at this
      omega
    have hp0 : p0 < 33 := by have := hall p0 (by simp); omega
    have hp1 : p1 < 33 := by have := hall p1 (by simp); omega
    exact roundTripOK_extract (pair_round_trip p0 hp0 p1 hp1 h)
  · have h2 : ((p0 :: p1 :: p2 :: rest3).all (fun p => decide (1 ≤ p) && decide (p ≤ 32))
        && ((decide (2 ≤ (p0 :: p1 :: p2 :: rest3).length)
            && decide ((p0 :: p1 :: p2 :: rest3).length ≤ 9))
            && chainJumps ((p0 :: p1 :: p2 :: rest3).map (· - 1)))) = true := h
    simp only [Bool.and_eq_true, decide_eq_true_eq] at h2
    obtain ⟨hall0, ⟨hlen2, hlen9'⟩, hchain⟩ := h2
    have hall : ∀ x ∈ p0 :: p1 :: p2 :: rest3, 1 ≤ x ∧ x ≤ 32 := by
      intro x hx
      have := List.all_eq_true.mp hall0 x hx
      simp at this
      omega
    have hlen3' : 3 ≤ (p0 :: p1 :: p2 :: rest3).length := by simp
    obtain ⟨data2, ds, hfv, hds, hdslen2, hsource, hdest, hjl, hdirs⟩ :=
      from_vector_jump p0 (p1 :: p2 :: rest3) hall hlen9' hlen3' hchain
    have hqs32 : ∀ x ∈ (p0 :: p1 :: p2 :: rest3).map (· - 1), x < 32 := by
      intro x hx
      obtain ⟨y, hy, hyx⟩ := List.mem_map.mp hx
      have := hall y hy
      omega
    have hp0ge : 1 ≤ p0 := (hall p0 (by simp)).1
    have htype : Action.action_type ⟨data2⟩ = ActionType.Jump := by
      rw [Action.action_type, hjl]
      rfl
    have hdsql : ds.length + 1 = ((p0 :: p1 :: p2 :: rest3).map (· - 1)).length := by
      simp [hdslen2]
    have hjl2 : Action.jump_len ⟨data2⟩ = ds.length := by rw [hjl, hdslen2]
    have hwalk := movetextWalk_run ⟨data2⟩ ((p0 :: p1 :: p2 :: rest3).map (· - 1)) ds
      hqs32 hchain hds hdsql hjl2 hdirs
      ((p1 :: p2 :: rest3).map (· - 1)) [] (p0 - 1)
      (digitsOf (Action.source ⟨data2⟩ + 1) ++ [Char.ofNat 45])
      (by simp)
    simp only [List.length_map] at hwalk
    have hsrc1 : Action.source ⟨data2⟩ + 1 = p0 := by rw [hsource]; omega
    rw [hsrc1] at hwalk
    have hparts : ((p0 :: p1 :: p2 :: rest3).map (· - 1)).map (fun q => digitsOf (q + 1))
        = digitsOf p0 :: (((p1 :: p2 :: rest3).map (· - 1)).map (fun q => digitsOf (q + 1))) := by
      simp only [List.map_cons]
      congr 2
      omega
    have hjoin : digitsOf p0 ++ [Char.ofNat 45]
          ++ joinTrail (Char.ofNat 45)
            (((p1 :: p2 :: rest3).map (· - 1)).map (fun q => digitsOf (q + 1)))
        = joinTrail (Char.ofNat 45)
            (((p0 :: p1 :: p2 :: rest3).map (· - 1)).map (fun q => digitsOf (q + 1))) := by
      rw [hparts]
      simp [joinTrail]
    have hne : ((p0 :: p1 :: p2 :: rest3).map (· - 1)).map (fun q => digitsOf (q + 1)) ≠ [] := by
      simp
    have hmt : Action.movetext ⟨data2⟩
        = some (List.intercalate [Char.ofNat 45]
            (((p0 :: p1 :: p2 :: rest3).map (· - 1)).map (fun q => digitsOf (q + 1)))) := by
      rw [Action.movetext, htype]
      show (movetextWalk ⟨data2⟩ (Action.jump_len ⟨data2⟩) (Action.source ⟨data2⟩)
          (digitsOf (Action.source ⟨data2⟩ + 1) ++ [Char.ofNat 45])).bind
            (fun out => some out.dropLast) = _
      rw [hsrc1, hjl, hsource, hwalk]
      show some ((digitsOf p0 ++ [Char.ofNat 45]
        ++ joinTrail (Char.ofNat 45)
            (((p1 :: p2 :: rest3).map (· - 1)).map (fun q => digitsOf (q + 1)))).dropLast) = _
      rw [hjoin, joinTrail_dropLast hne]
    have hnosep : ∀ p ∈ ((p0 :: p1 :: p2 :: rest3).map (· - 1)).map (fun q => digitsOf (q + 1)),
        Char.ofNat 45 ∉ p := by
      intro p hp
      obtain ⟨q, hq, hqp⟩ := List.mem_map.mp hp
      have := digits_ok q (hqs32 q hq)
      rw [← hqp]
      exact this.2.1
    have hfmt : Action.from_movetext (List.intercalate [Char.ofNat 45]
        (((p0 :: p1 :: p2 :: rest3).map (· - 1)).map (fun q => digitsOf (q + 1)))) =
          .ok ⟨data2⟩ := by
      rw [Action.from_movetext]
      rw [splitOnChar_intercalate _ _ hne hnosep]
      rw [parseSegments_digits _ hqs32]
      show Action.from_vector (((p0 :: p1 :: p2 :: rest3).map (· - 1)).map (· + 1)) = _
      rw [map_sub_add _ (fun x hx => (hall x hx).1)]
      exact hfv
    exact ⟨⟨data2⟩, _, hfv, hmt, hfmt⟩

theorem C9_movetext_round_trip_witness :
    validSeq [10, 17, 26] = true ∧
    (∃ a mt, Action.from_vector [10, 17, 26] = .ok a ∧ a.movetext = some mt ∧
      Action.from_movetext mt = .ok a) :=
  ⟨by decide, C9_movetext_round_trip [10, 17, 26] (by decide)⟩

theorem SVal_max_ne_inf {a b : SVal} (ha : a ≠ .inf) (hb : b ≠ .inf) :
    SVal.max a b ≠ .inf := by
  unfold SVal.max
  split <;> assumption

theorem SVal_min_ne_ninf {a b : SVal} (ha : a ≠ .ninf) (hb : b ≠ .ninf) :
    SVal.min a b ≠ .ninf := by
  unfold SVal.min
  split <;> assumption

theorem SVal_le_inf_false {x : SVal} (hx : x ≠ .inf) : SVal.le .inf x = false := by
  cases x <;> simp_all [SVal.le]

theorem SVal_le_ninf_false {x : SVal} (hx : x ≠ .ninf) : SVal.le x .ninf = false := by
  cases x <;> simp_all [SVal.le]

theorem probe_none_of_tblAll {P : Bitboard → Prop} {t : TranspositionTable}
    (hT : tblAll P t) {s : Bitboard} (hs : ¬ P s) (zh d : Nat) :
    t.probe zh s d = none := by
  unfold TranspositionTable.probe
  cases h : probeCluster s d (t.clusters.getD (zh % t.n_clusters) []) with
  | none => rfl
  | some v =>
    obtain ⟨e, he, _, hes, _⟩ := probeCluster_some h
    exact absurd (hes ▸ hT _ e he) hs

theorem tblAll_fresh {P : Bitboard → Prop} (hd : P Bitboard.default) (n : Nat) :
    tblAll P (TranspositionTable.fresh n) := by
  intro k e he
  rw [TranspositionTable.fresh] at he
  simp only [List.getD_eq_getElem?_getD, List.getElem?_replicate] at he
  by_cases hk : k < n
  · rw [if_pos hk] at he
    simp only [Option.getD_some] at he
    rw [List.eq_of_mem_replicate he]
    exact hd
  · rw [if_neg hk] at he
    simp at he

theorem tblAll_new_search {P : Bitboard → Prop} {t : TranspositionTable}
    (hT : tblAll P t) : tblAll P t.new_search := by
  intro k e he
  exact hT k e he

theorem tblAll_save {P : Bitboard → Prop} {t : TranspositionTable} (hT : tblAll P t)
    {s : Bitboard} (hs : P s) (zh d : Nat) (v : SVal) :
    tblAll P (t.save zh s d v) := by
  intro k e he
  unfold TranspositionTable.save at he
  simp only [List.getD_eq_getElem?_getD] at he
  by_cases hk : k = zh % t.n_clusters
  · rw [hk] at he
    by_cases hlen : zh % t.n_clusters < t.clusters.length
    · rw [List.getElem?_set_self (by simpa using hlen)] at he
      simp only [Option.getD_some] at he
      rcases saveCluster_mem he with rfl | hmem
      · exact hs
      · exact hT (zh % t.n_clusters) e (by simpa [List.getD_eq_getElem?_getD] using hmem)
    · rw [List.set_eq_of_length_le (by omega)] at he
      exact hT (zh % t.n_clusters) e (by simpa [List.getD_eq_getElem?_getD] using he)
  · rw [List.getElem?_set_ne (by omega)] at he
    exact hT k e (by simpa [List.getD_eq_getElem?_getD] using he)

theorem tblAll_mono {P Q : Bitboard → Prop} (h : ∀ s, P s → Q s)
    {t : TranspositionTable} (hT : tblAll P t) : tblAll Q t :=
  fun k e he => h _ (hT k e he)

theorem mmRun_node0 {P : Bitboard → Prop} {t : TranspositionTable} (hT : tblAll P t)
    {s : Bitboard} (hs : ¬ P s) (a b : SVal) (zh : Nat) (fuel : Nat) (hf : 1 ≤ fuel) :
    mmRun fuel (.node 0 t s a b zh) = some (.fin (evaluate s), t) := by
  obtain ⟨f, rfl⟩ : ∃ f, fuel = f + 1 := ⟨fuel - 1, by omega⟩
  show (match t.probe zh s 0 with
    | some value => some (value, t)
    | none => some (SVal.fin (evaluate s), t)) = some (SVal.fin (evaluate s), t)
  rw [probe_none_of_tblAll hT hs zh 0]

theorem mmRun_foldMax0 {P : Bitboard → Prop} {t : TranspositionTable} (hT : tblAll P t)
    (zh : Nat) (gcs : List ActionStatePair) :
    ∀ (fuel : Nat) (me alpha : SVal), gcs.length + 1 ≤ fuel →
      (∀ g ∈ gcs, ¬ P g.state) → me ≠ SVal.inf → alpha ≠ SVal.inf →
      mmRun fuel (.foldMax 0 t gcs me alpha SVal.inf zh) =
        some (gcs.foldl (fun acc p => SVal.max acc (.fin (evaluate p.state))) me, t) := by
  induction gcs with
  | nil =>
    intro fuel me alpha hf _ _ _
    obtain ⟨f, rfl⟩ : ∃ f, fuel = f + 1 := ⟨fuel - 1, by omega⟩
    rfl
  | cons g rest ih =>
    intro fuel me alpha hf hgs hme halpha
    obtain ⟨f, rfl⟩ : ∃ f, fuel = f + 1 := ⟨fuel - 1, by omega⟩
    simp only [List.length_cons] at hf
    have hnode := mmRun_node0 hT (hgs g (List.mem_cons_self g rest)) alpha SVal.inf
      (zh ^^^ g.zobrist_diff) f (by omega)
    have hfin : (SVal.fin (evaluate g.state)) ≠ SVal.inf := by simp
    have hme2 : SVal.max me (.fin (evaluate g.state)) ≠ SVal.inf := SVal_max_ne_inf hme hfin
    have halpha2 : SVal.max alpha (SVal.max me (.fin (evaluate g.state))) ≠ SVal.inf :=
      SVal_max_ne_inf halpha hme2
    show (mmRun f (.node 0 t g.state alpha SVal.inf (zh ^^^ g.zobrist_diff))).bind
        (fun r =>
          if SVal.le SVal.inf (SVal.max alpha (SVal.max me r.1)) then
            some (SVal.max me r.1, r.2)
          else mmRun f (.foldMax 0 r.2 rest (SVal.max me r.1)
            (SVal.max alpha (SVal.max me r.1)) SVal.inf zh)) = _
    rw [hnode]
    show (if SVal.le SVal.inf (SVal.max alpha (SVal.max me (.fin (evaluate g.state)))) then _
      else _) = _
    rw [if_neg (by rw [SVal_le_inf_false halpha2]; simp)]
    rw [ih f (SVal.max me (.fin (evaluate g.state)))
      (SVal.max alpha (SVal.max me (.fin (evaluate g.state)))) (by omega)
      (fun g2 hg2 => hgs g2 (List.mem_cons_of_mem g hg2)) hme2 halpha2]
    rfl

theorem mmRun_foldMin0 {P : Bitboard → Prop} {t : TranspositionTable} (hT : tblAll P t)
    (zh : Nat) (gcs : List ActionStatePair) :
    ∀ (fuel : Nat) (me beta : SVal), gcs.length + 1 ≤ fuel →
      (∀ g ∈ gcs, ¬ P g.state) → me ≠ SVal.ninf → beta ≠ SVal.ninf →
      mmRun fuel (.foldMin 0 t gcs me SVal.ninf beta zh) =
        some (gcs.foldl (fun acc p => SVal.min acc (.fin (evaluate p.state))) me, t) := by
  induction gcs with
  | nil =>
    intro fuel me beta hf _ _ _
    obtain ⟨f, rfl⟩ : ∃ f, fuel = f + 1 := ⟨fuel - 1, by omega⟩
    rfl
  | cons g rest ih =>
    intro fuel me beta hf hgs hme hbeta
    obtain ⟨f, rfl⟩ : ∃ f, fuel = f + 1 := ⟨fuel - 1, by omega⟩
    simp only [List.length_cons] at hf
    have hnode := mmRun_node0 hT (hgs g (List.mem_cons_self g rest)) SVal.ninf beta
      (zh ^^^ g.zobrist_diff) f (by omega)
    have hfin : (SVal.fin (evaluate g.state)) ≠ SVal.ninf := by simp
    have hme2 : SVal.min me (.fin (evaluate g.state)) ≠ SVal.ninf := SVal_min_ne_ninf hme hfin
    have hbeta2 : SVal.min beta (SVal.min me (.fin (evaluate g.state))) ≠ SVal.ninf :=
      SVal_min_ne_ninf hbeta hme2
    show (mmRun f (.node 0 t g.state SVal.ninf beta (zh ^^^ g.zobrist_diff))).bind
        (fun r =>
          if SVal.le (SVal.min beta (SVal.min me r.1)) SVal.ninf then
            some (SVal.min me r.1, r.2)
          else mmRun f (.foldMin 0 r.2 rest (SVal.min me r.1)
            SVal.ninf (SVal.min beta (SVal.min me r.1)) zh)) = _
    rw [hnode]
    show (if SVal.le (SVal.min beta (SVal.min me (.fin (evaluate g.state)))) SVal.ninf then _
      else _) = _
    rw [if_neg (by rw [SVal_le_ninf_false hbeta2]; simp)]
    rw [ih f (SVal.min me (.fin (evaluate g.state)))
      (SVal.min beta (SVal.min me (.fin (evaluate g.state)))) (by omega)
      (fun g2 hg2 => hgs g2 (List.mem_cons_of_mem g hg2)) hme2 hbeta2]
    rfl

theorem mmRun_node1_term {P : Bitboard → Prop} {t : TranspositionTable} (hT : tblAll P t)
    {c : Bitboard} (hc : ¬ P c) (hterm : c.get_game_state ≠ GameState.InProgress)
    (zh : Nat) (fuel : Nat) (hf : 1 ≤ fuel) :
    value1 c = some (.fin (evaluate c)) ∧
    mmRun fuel (.node 1 t c .ninf .inf zh) = some (.fin (evaluate c), t) := by
  obtain ⟨f, rfl⟩ : ∃ f, fuel = f + 1 := ⟨fuel - 1, by omega⟩
  constructor
  · rw [value1, if_pos hterm]
  · show (match t.probe zh c 1 with
      | some value => some (value, t)
      | none =>
        if c.get_game_state ≠ GameState.InProgress then
          some (SVal.fin (evaluate c), t)
        else do
          let children ← c.generate_all_actions
          let folded ←
            match c.turn.optim with
            | .Max => mmRun f (.foldMax 0 t children SVal.ninf SVal.ninf SVal.inf zh)
            | .Min => mmRun f (.foldMin 0 t children SVal.inf SVal.ninf SVal.inf zh)
          pure (folded.1, (folded.2).save zh c (0 + 1) folded.1)) =
      some (SVal.fin (evaluate c), t)
    rw [probe_none_of_tblAll hT hc zh 1, if_pos hterm]

theorem mmRun_node1_exp {P : Bitboard → Prop} {t : TranspositionTable} (hT : tblAll P t)
    {c : Bitboard} (hc : ¬ P c) (hprog : c.get_game_state = GameState.InProgress)
    {gcs : List ActionStatePair} (hgen : c.generate_all_actions = some gcs)
    (hgs : ∀ g ∈ gcs, ¬ P g.state) (zh : Nat) (fuel : Nat) (hf : gcs.length + 2 ≤ fuel) :
    ∃ v, value1 c = some v ∧
      mmRun fuel (.node 1 t c .ninf .inf zh) = some (v, t.save zh c 1 v) := by
  obtain ⟨f, rfl⟩ : ∃ f, fuel = f + 1 := ⟨fuel - 1, by omega⟩
  have hnp : ¬ c.get_game_state ≠ GameState.InProgress := by rw [hprog]; simp
  have hstep : mmRun (f + 1) (.node 1 t c .ninf .inf zh) = (do
      let folded ←
        match c.turn.optim with
        | Optim.Max => mmRun f (.foldMax 0 t gcs SVal.ninf SVal.ninf SVal.inf zh)
        | Optim.Min => mmRun f (.foldMin 0 t gcs SVal.inf SVal.ninf SVal.inf zh)
      pure (folded.1, (folded.2).save zh c (0 + 1) folded.1) :
        Option (SVal × TranspositionTable)) := by
    show (match t.probe zh c 1 with
      | some value => some (value, t)
      | none =>
        if c.get_game_state ≠ GameState.InProgress then
          some (SVal.fin (evaluate c), t)
        else do
          let children ← c.generate_all_actions
          let folded ←
            match c.turn.optim with
            | .Max => mmRun f (.foldMax 0 t children SVal.ninf SVal.ninf SVal.inf zh)
            | .Min => mmRun f (.foldMin 0 t children SVal.inf SVal.ninf SVal.inf zh)
          pure (folded.1, (folded.2).save zh c (0 + 1) folded.1)) = _
    rw [probe_none_of_tblAll hT hc zh 1, if_neg hnp, hgen]
    rfl
  cases ho : c.turn.optim with
  | Max =>
    refine ⟨gcs.foldl (fun acc p => SVal.max acc (.fin (evaluate p.state))) SVal.ninf, ?_, ?_⟩
    · rw [value1, if_neg hnp, hgen]
      rw [ho]
      rfl
    · rw [hstep, ho]
      show (do
        let folded ← mmRun f (.foldMax 0 t gcs SVal.ninf SVal.ninf SVal.inf zh)
        pure (folded.1, (folded.2).save zh c (0 + 1) folded.1) :
          Option (SVal × TranspositionTable)) = _
      rw [mmRun_foldMax0 hT zh gcs f SVal.ninf SVal.ninf (by omega) hgs (by simp) (by simp)]
      rfl
  | Min =>
    refine ⟨gcs.foldl (fun acc p => SVal.min acc (.fin (evaluate p.state))) SVal.inf, ?_, ?_⟩
    · rw [value1, if_neg hnp, hgen]
      rw [ho]
      rfl
    · rw [hstep, ho]
      show (do
        let folded ← mmRun f (.foldMin 0 t gcs SVal.inf SVal.ninf SVal.inf zh)
        pure (folded.1, (folded.2).save zh c (0 + 1) folded.1) :
          Option (SVal × TranspositionTable)) = _
      rw [mmRun_foldMin0 hT zh gcs f SVal.inf SVal.inf (by omega) hgs (by simp) (by simp)]
      rfl

theorem searchDepth_fold (zh0 : Nat) (cs : List ActionStatePair) :
    ∀ (S : List Bitboard) (t : TranspositionTable) (acc : List SVal),
      tblAll (fun s => s = Bitboard.default ∨ s ∈ S) t →
      (∀ p ∈ cs, p.state ≠ Bitboard.default ∧ p.state ∉ S) →
      distinctStates (cs.map (·.state)) = true →
      (∀ p ∈ cs, p.state.get_game_state = GameState.InProgress →
        ∃ gcs, p.state.generate_all_actions = some gcs ∧ gcs.length + 2 ≤ searchFuel ∧
          ∀ g ∈ gcs, g.state ≠ Bitboard.default ∧ g.state ∉ S ∧
            g.state ∉ cs.map (·.state)) →
      ∃ vs t2, mapVal1 cs = some vs ∧
        List.foldlM (fun (st : List SVal × TranspositionTable) p => do
            let r ← minmax 1 st.2 p.state SVal.ninf SVal.inf (zh0 ^^^ p.zobrist_diff)
            pure (st.1 ++ [r.1], r.2)) (acc, t) cs = some (acc ++ vs, t2) := by
  induction cs with
  | nil =>
    intro S t acc _ _ _ _
    exact ⟨[], t, rfl, by simp [List.foldlM]⟩
  | cons p rest ih =>
    intro S t acc hT h2 h3 h4
    obtain ⟨hpd, hpS⟩ := h2 p (List.mem_cons_self p rest)
    have hcP : ¬ (p.state = Bitboard.default ∨ p.state ∈ S) := by
      rintro (h | h)
      · exact hpd h
      · exact hpS h
    simp only [List.map_cons, distinctStates, Bool.and_eq_true] at h3
    obtain ⟨h3a, h3b⟩ := h3
    have hne_head : ∀ p2 ∈ rest, p2.state ≠ p.state := by
      intro p2 hp2
      have := List.all_eq_true.mp h3a p2.state (List.mem_map_of_mem _ hp2)
      exact of_decide_eq_true this
    have key : ∃ v t3, value1 p.state = some v ∧
        mmRun searchFuel
          (.node 1 t p.state SVal.ninf SVal.inf (zh0 ^^^ p.zobrist_diff)) = some (v, t3) ∧
        tblAll (fun s => s = Bitboard.default ∨ s ∈ S ++ [p.state]) t3 := by
      have hmono : ∀ s : Bitboard, (s = Bitboard.default ∨ s ∈ S) →
          (s = Bitboard.default ∨ s ∈ S ++ [p.state]) := by
        rintro s (h | h)
        · exact Or.inl h
        · exact Or.inr (List.mem_append_left _ h)
      by_cases hprog : p.state.get_game_state = GameState.InProgress
      · obtain ⟨gcs, hg1, hg2, hg3⟩ := h4 p (List.mem_cons_self p rest) hprog
        have hgsP : ∀ g ∈ gcs, ¬ (g.state = Bitboard.default ∨ g.state ∈ S) := by
          intro g hg
          rintro (h | h)
          · exact (hg3 g hg).1 h
          · exact (hg3 g hg).2.1 h
        obtain ⟨v, hv1, hv2⟩ := mmRun_node1_exp hT hcP hprog hg1 hgsP
          (zh0 ^^^ p.zobrist_diff) searchFuel hg2
        refine ⟨v, _, hv1, hv2, ?_⟩
        exact tblAll_save (tblAll_mono hmono hT)
          (Or.inr (List.mem_append_right _ (List.mem_singleton_self _))) _ _ _
      · obtain ⟨hv1, hv2⟩ := mmRun_node1_term hT hcP hprog
          (zh0 ^^^ p.zobrist_diff) searchFuel (by decide)
        exact ⟨_, t, hv1, hv2, tblAll_mono hmono hT⟩
    obtain ⟨v, t3, hv1, hv2, hT3⟩ := key
    have h2r : ∀ p2 ∈ rest, p2.state ≠ Bitboard.default ∧ p2.state ∉ S ++ [p.state] := by
      intro p2 hp2
      refine ⟨(h2 p2 (List.mem_cons_of_mem p hp2)).1, ?_⟩
      simp only [List.mem_append, List.mem_singleton, not_or]
      exact ⟨(h2 p2 (List.mem_cons_of_mem p hp2)).2, hne_head p2 hp2⟩
    have h4r : ∀ p2 ∈ rest, p2.state.get_game_state = GameState.InProgress →
        ∃ gcs, p2.state.generate_all_actions = some gcs ∧ gcs.length + 2 ≤ searchFuel ∧
          ∀ g ∈ gcs, g.state ≠ Bitboard.default ∧ g.state ∉ S ++ [p.state] ∧
            g.state ∉ rest.map (·.state) := by
      intro p2 hp2 hprog2
      obtain ⟨gcs, hg1, hg2, hg3⟩ := h4 p2 (List.mem_cons_of_mem p hp2) hprog2
      refine ⟨gcs, hg1, hg2, fun g hg => ⟨(hg3 g hg).1, ?_, ?_⟩⟩
      · simp only [List.mem_append, List.mem_singleton, not_or]
        refine ⟨(hg3 g hg).2.1, fun hgp => (hg3 g hg).2.2 ?_⟩
        rw [List.map_cons, hgp]
        exact List.mem_cons_self _ _
      · intro hmem
        exact (hg3 g hg).2.2 (by rw [List.map_cons]; exact List.mem_cons_of_mem _ hmem)
    obtain ⟨vs, t2, hm, hfold⟩ := ih (S ++ [p.state]) t3 (acc ++ [v]) hT3 h2r h3b h4r
    refine ⟨v :: vs, t2, ?_, ?_⟩
    · show (do
        let v2 ← value1 p.state
        let vs2 ← mapVal1 rest
        pure (v2 :: vs2) : Option (List SVal)) = some (v :: vs)
      rw [hv1, hm]
      rfl
    · have hminmax : minmax 1 t p.state SVal.ninf SVal.inf (zh0 ^^^ p.zobrist_diff) =
          some (v, t3) := hv2
      show (do
        let st ← (do
          let r ← minmax 1 t p.state SVal.ninf SVal.inf (zh0 ^^^ p.zobrist_diff)
          pure (acc ++ [r.1], r.2))
        List.foldlM (fun (st : List SVal × TranspositionTable) p => do
            let r ← minmax 1 st.2 p.state SVal.ninf SVal.inf (zh0 ^^^ p.zobrist_diff)
            pure (st.1 ++ [r.1], r.2)) st rest :
          Option (List SVal × TranspositionTable)) = some (acc ++ v :: vs, t2)
      rw [hminmax]
      show List.foldlM (fun (st : List SVal × TranspositionTable) p => do
          let r ← minmax 1 st.2 p.state SVal.ninf SVal.inf (zh0 ^^^ p.zobrist_diff)
          pure (st.1 ++ [r.1], r.2)) (acc ++ [v], t3) rest = some (acc ++ v :: vs, t2)
      rw [hfold]
      simp

/-- C6: corrected.  On a fresh engine, `search` with `SearchConstraint::Depth(1)`
does return one scored pair per root action, sorted in the side to move's
optimization direction — but each child's score is the one-further-ply
minimax value `value1` of the child (so `evaluate(child)` only when the
child's game is over), not the child's static evaluation, because
`minmax_helper(child, 1, …)` expands one more ply before evaluating.  The
cleanliness hypothesis rules out transposition-table interference: children
pairwise distinct, and no child or grandchild equal to the default board
(the sentinel state of untouched slots) or colliding with a child state. -/
theorem C6_depth1_search_amended (n : Nat) (b : Bitboard) (cs : List ActionStatePair)
    (hgen : b.generate_all_actions = some cs)
    (hclean : depth1Clean cs = true) :
    ∃ vs, mapVal1 cs = some vs ∧
      searchDepth n b 1 =
        some (sortPairs (searchLe b.turn.optim) ((cs.map (·.action)).zip vs)) := by
  simp only [depth1Clean, Bool.and_eq_true] at hclean
  obtain ⟨hdist, hallc⟩ := hclean
  have hcc : ∀ p ∈ cs, childClean (cs.map (·.state)) p.state = true :=
    fun p hp => List.all_eq_true.mp hallc p hp
  have h2 : ∀ p ∈ cs, p.state ≠ Bitboard.default ∧ p.state ∉ ([] : List Bitboard) := by
    intro p hp
    have hc := hcc p hp
    simp only [childClean, Bool.and_eq_true] at hc
    exact ⟨of_decide_eq_true hc.1, by simp⟩
  have h4 : ∀ p ∈ cs, p.state.get_game_state = GameState.InProgress →
      ∃ gcs, p.state.generate_all_actions = some gcs ∧ gcs.length + 2 ≤ searchFuel ∧
        ∀ g ∈ gcs, g.state ≠ Bitboard.default ∧ g.state ∉ ([] : List Bitboard) ∧
          g.state ∉ cs.map (·.state) := by
    intro p hp hprog
    have hc := hcc p hp
    simp only [childClean, Bool.and_eq_true] at hc
    obtain ⟨_, hrest⟩ := hc
    rw [if_pos hprog] at hrest
    cases hg : p.state.generate_all_actions with
    | none =>
      rw [hg] at hrest
      have hfalse : false = true := hrest
      exact Bool.noConfusion hfalse
    | some gcs =>
      rw [hg] at hrest
      have hrest2 : (decide (gcs.length + 2 ≤ searchFuel) &&
          gcs.all (fun g => decide (g.state ≠ Bitboard.default) &&
            decide (g.state ∉ cs.map (·.state)))) = true := hrest
      simp only [Bool.and_eq_true] at hrest2
      refine ⟨gcs, rfl, of_decide_eq_true hrest2.1, ?_⟩
      intro g hgmem
      have := List.all_eq_true.mp hrest2.2 g hgmem
      simp only [Bool.and_eq_true] at this
      exact ⟨of_decide_eq_true this.1, by simp, of_decide_eq_true this.2⟩
  obtain ⟨vs, t2, hm, hfold⟩ := searchDepth_fold b.zobrist_hash cs []
    ((TranspositionTable.fresh n).new_search) []
    (tblAll_new_search (tblAll_fresh (Or.inl rfl) n)) h2 hdist h4
  refine ⟨vs, hm, ?_⟩
  show (do
    let action_states ← b.generate_all_actions
    let folded ← action_states.foldlM
      (fun (st : List SVal × TranspositionTable) p => do
        let r ← minmax 1 st.2 p.state SVal.ninf SVal.inf (b.zobrist_hash ^^^ p.zobrist_diff)
        pure (st.1 ++ [r.1], r.2))
      (([], (TranspositionTable.fresh n).new_search) : List SVal × TranspositionTable)
    pure (sortPairs (searchLe b.turn.optim) ((action_states.map (·.action)).zip folded.1)) :
      Option (List (Action × SVal))) = _
  rw [hgen]
  show (do
    let folded ← List.foldlM
      (fun (st : List SVal × TranspositionTable) p => do
        let r ← minmax 1 st.2 p.state SVal.ninf SVal.inf (b.zobrist_hash ^^^ p.zobrist_diff)
        pure (st.1 ++ [r.1], r.2))
      (([], (TranspositionTable.fresh n).new_search) : List SVal × TranspositionTable) cs
    pure (sortPairs (searchLe b.turn.optim) ((cs.map (·.action)).zip folded.1)) :
      Option (List (Action × SVal))) = _
  rw [hfold]
  show some (sortPairs (searchLe b.turn.optim) ((cs.map (·.action)).zip ([] ++ vs))) = _
  rw [List.nil_append]

/-- C6: counterexample to the spec as written.  On the board `B:W18:B10`
(Black to move, two legal moves, both hanging the black man), depth-1
search scores both root actions `-1` — the value after White's forced
recapture — whereas the spec's claimed score, the child's own static
evaluation, is `0` for both children. -/
theorem C6_child_score_not_static_eval :
    (searchDepth 16 C6board 1).map (List.map Prod.snd) =
      some [.fin (-1), .fin (-1)] ∧
    (Bitboard.generate_all_actions C6board).map
      (List.map (fun p => specChildScore p.state)) = some [.fin 0, .fin 0] ∧
    (searchDepth 16 C6board 1).map (List.map Prod.snd) ≠
      (Bitboard.generate_all_actions C6board).map
        (List.map (fun p => specChildScore p.state)) := by
  refine ⟨by decide, by decide, by decide⟩

/-- The corrected depth-1 search law instantiated on the board `B:W18:B10`
with its two generated root children. -/
theorem C6_depth1_search_witness :
    ∃ vs, mapVal1 C6children = some vs ∧
      searchDepth 16 C6board 1 =
        some (sortPairs (searchLe C6board.turn.optim)
          ((C6children.map (·.action)).zip vs)) :=
  C6_depth1_search_amended 16 C6board C6children (by decide) (by decide)

end Muskox
